import Mathlib

/-! # pomo: the session runner

A shallow embedding of `pkg/internal/runner.go` (the `TaskRunner` and its `run` loop) and
of `pkg/filter/task.go` (the task filters).

Conventions of the embedding.

* `time.Duration` is an `int64` count of nanoseconds: it is an `Int` here, and the one
  subtraction of the source (`t.duration - time.Since(..)`) wraps with `wrap64`.
  `time.Time` is an `Int`, the nanoseconds since the zero `time.Time`; `Time.Sub`
  saturates to the `Duration` range exactly as the Go library does.
* The goroutine running `run` is a sequential machine. It blocks at the `select`
  (label `loop:`), at `<-t.pause` (while paused), at `<-t.toggle` (during a break) and in
  the store transaction `t.store.With(..)`. A `Session` records where the goroutine
  is blocked (`Loc`, with the local variables `pomodoro`, `timer`, `remaining` that are
  live there) and what it has done to its collaborators (store, notifier, hook).
  An `Event` wakes it: the statements up to the next blocking point run at the instant
  the event carries, which is the value every `time.Now()` among them returns.
* `t.count` and `t.nPomodoros` are Go `int`s, `Int` here; `t.count++` is only executed
  under `t.count < t.nPomodoros`, so it cannot overflow.
* A timer armed at instant `a` with duration `d` delivers on `timer.C` no earlier than
  `a + d`.
-/

namespace Pomo

/-! ## Durations and instants (package `time`) -/

/-- A `time.Duration`: nanoseconds, an `int64` value. -/
abbrev Duration := Int

/-- A `time.Time`: nanoseconds since the zero `time.Time`. -/
abbrev Time := Int

/-- A Go `error` value. -/
abbrev Error := String

/-- The least `Duration`, `-1 << 63` nanoseconds. -/
def minDuration : Duration := -9223372036854775808

/-- The greatest `Duration`, `1<<63 - 1` nanoseconds. -/
def maxDuration : Duration := 9223372036854775807

/-- The constant `time.Second`. -/
def Second : Duration := 1000000000

/-- Two's complement wrap-around of `int64` arithmetic. -/
def wrap64 (x : Int) : Int :=
  (x + 9223372036854775808) % 18446744073709551616 - 9223372036854775808

/-- The method `Time.Sub`: the duration `t - u`, saturated to the `Duration` range. -/
def Sub (t u : Time) : Duration :=
  if t - u < minDuration then minDuration
  else if maxDuration < t - u then maxDuration
  else t - u

/-- The function `time.Since(t)`, which is `time.Now().Sub(t)`; `now` is the clock reading. -/
def Since (now t : Time) : Duration := Sub now t

/-- The method `Duration.Truncate`: round `d` toward zero to a multiple of `m`
(`d` itself when `m <= 0`); Go computes `d - d%m`, `%` truncating toward zero. -/
def Truncate (d m : Duration) : Duration :=
  if m ≤ 0 then d else d - Int.tmod d m

/-! ## Data model -/

/-- Modelled from the spec: the declaration of the type `State` and of its constants is
not among the sources; these are the five session states of the spec, `CREATED` being
the initial one, the zero value `State(0)` that `NewTaskRunner` starts from. -/
inductive State where
  | CREATED
  | RUNNING
  | BREAKING
  | COMPLETE
  | PAUSED
  deriving DecidableEq, Repr

/-- Modelled from the spec: the declaration of `Pomodoro` is not among the sources; an
interval has a start and an end timestamp (`pomodoro.Start`, `pomodoro.End` in `run`). -/
structure Pomodoro where
  Start : Time
  End : Time
  deriving DecidableEq, Repr

/-- Modelled from the spec: the declaration of `Tags` is not among the sources; a task
carries arbitrary key/value tags, here the list of its pairs. -/
structure Tags where
  kvs : List (String × String) := []
  deriving DecidableEq, Repr

/-- Modelled from the spec: the method `HasTag` is not among the sources; whether a tag
with this key is present. -/
def Tags.HasTag (tags : Tags) (key : String) : Bool := (tags.kvs.lookup key).isSome

/-- Modelled from the spec: the method `Get` is not among the sources; the value of the
tag with this key, the empty string when there is none. -/
def Tags.Get (tags : Tags) (key : String) : String := (tags.kvs.lookup key).getD ""

/-- Modelled from the spec: the declaration of `Task` is not among the sources; these are
the fields `NewTaskRunner` and the task filters read. -/
structure Task where
  ID : Int
  Message : String
  NPomodoros : Int
  Duration : Duration
  Pomodoros : List Pomodoro := []
  Tags : Tags := {}
  deriving DecidableEq, Repr

/-- Modelled from the spec: the declaration of `Config` is not among the sources; these
are the fields `NewTaskRunner` reads. -/
structure Config where
  DBPath : String := ""
  IconPath : String := ""
  OnEvent : List String := []
  deriving DecidableEq, Repr

/-- The struct `TaskRunner`. The handles `store`, `notifier`, the channels `pause` and
`toggle` and the mutex `mu` carry no data of their own: what is done through them is
recorded in the `Session`. -/
structure TaskRunner where
  count : Int := 0
  taskID : Int
  taskMessage : String
  nPomodoros : Int
  origDuration : Duration
  state : State
  started : Time := 0
  stopped : Time := 0
  duration : Duration
  onEvent : List String := []
  deriving DecidableEq, Repr

/-- The snapshot returned by `Status()`. -/
structure Status where
  State : State
  Count : Int
  NPomodoros : Int
  Remaining : Duration
  Pauseduration : Duration
  deriving DecidableEq, Repr

/-- The constructor `NewMockedTaskRunner`: count 0, no hook command; the `store` and
`notifier` it is given are handles. -/
def NewMockedTaskRunner (task : Task) : TaskRunner :=
  { taskID := task.ID
    taskMessage := task.Message
    nPomodoros := task.NPomodoros
    origDuration := task.Duration
    state := State.CREATED
    duration := task.Duration }

/-- The constructor `NewTaskRunner`; `storeErr` is what `NewStore(config.DBPath)` returns. -/
def NewTaskRunner (task : Task) (config : Config) (storeErr : Option Error) :
    Except Error TaskRunner :=
  match storeErr with
  | some err => Except.error err
  | none =>
    Except.ok
      { count := task.Pomodoros.length
        taskID := task.ID
        taskMessage := task.Message
        nPomodoros := task.NPomodoros
        origDuration := task.Duration
        state := State.CREATED
        duration := task.Duration
        onEvent := config.OnEvent }

/-- The method `TimeRemaining`, the clock reading `now`. -/
def TimeRemaining (t : TaskRunner) (now : Time) : Duration :=
  Truncate (wrap64 (t.duration - Since now t.started)) Second

/-- The method `TimePauseDuration`, the clock reading `now`. -/
def TimePauseDuration (t : TaskRunner) (now : Time) : Duration :=
  Truncate (Since now t.stopped) Second

/-- The method `SetState`. -/
def SetState (t : TaskRunner) (state : State) : TaskRunner :=
  { t with state := state }

/-- The method `Status`, the clock reading `now`. -/
def TaskRunner.Status (t : TaskRunner) (now : Time) : Status :=
  { State := t.state
    Count := t.count
    NPomodoros := t.nPomodoros
    Remaining := TimeRemaining t now
    Pauseduration := TimePauseDuration t now }

/-! ## The hook -/

/-- One execution of the external command: `exec.Command(app, args...)` run with
`POMO_STATE=<state>` added to the environment. -/
structure HookCall where
  app : String
  args : List String
  pomoState : State
  deriving DecidableEq, Repr

/-- The method `OnEvent`. `cmdRun` is what `cmd.Run()` returns for the command built.
The result is `none` when the method does not return: `t.onEvent[0]` on an empty
slice is a run-time panic (index out of range). Otherwise it is the command that was
run together with the error value returned. -/
def OnEvent (t : TaskRunner) (cmdRun : HookCall → Option Error) :
    Option (HookCall × Option Error) :=
  match t.onEvent with
  | [] => none
  | app :: args =>
    let cmd : HookCall := { app := app, args := args, pomoState := t.state }
    match cmdRun cmd with
    | some err => some (cmd, some err)
    | none => some (cmd, none)

/-! ## The loop `run` -/

/-- Where the goroutine executing `run` is blocked. -/
inductive Loc where
  /-- Before `Start()` is called. -/
  | created
  /-- In the `select` at label `loop:`; the timer was armed at `armed` with `dur`. -/
  | selecting (pomodoro : Pomodoro) (armed : Time) (dur : Duration)
  /-- At `<-t.pause` inside the pause case, the timer stopped, `remaining` captured. -/
  | paused (pomodoro : Pomodoro) (remaining : Duration)
  /-- Inside `t.store.With(..)`, appending `pomodoro`. -/
  | storing (pomodoro : Pomodoro)
  /-- At `<-t.toggle`, waiting for the break to be acknowledged. -/
  | breaking
  /-- The function `run` has returned `err`. -/
  | returned (err : Option Error)
  /-- The goroutine died of a run-time panic. -/
  | panicked
  deriving DecidableEq, Repr

/-- A runner together with the control point of its loop and the record of what the
loop did to its collaborators. -/
structure Session where
  tr : TaskRunner
  loc : Loc := Loc.created
  /-- The calls `CreatePomodoro(tx, taskID, pomodoro)` issued, oldest first. -/
  appends : List (Int × Pomodoro) := []
  /-- What the store returned for the appends that have finished, oldest first. -/
  results : List (Option Error) := []
  /-- The calls `notifier.Notify(title, body)`, oldest first. -/
  notified : List (String × String) := []
  /-- The hook commands executed, oldest first. -/
  hooked : List HookCall := []
  deriving DecidableEq, Repr

/-- What the `i`-th execution of the hook command returns. -/
abbrev HookOracle := Nat → HookCall → Option Error

/-- What wakes the loop, and when. -/
inductive Event where
  /-- The call `Start()`: the goroutine begins `run`. -/
  | start (now : Time)
  /-- A value arrives on `timer.C`. -/
  | timerC (now : Time)
  /-- A value arrives on `t.toggle`. -/
  | toggle (now : Time)
  /-- A value arrives on `t.pause`. -/
  | pause (now : Time)
  /-- The store transaction returns `err`. -/
  | stored (now : Time) (err : Option Error)
  deriving DecidableEq, Repr

/-- The instant of an event. -/
def Event.time : Event → Time
  | Event.start now => now
  | Event.timerC now => now
  | Event.toggle now => now
  | Event.pause now => now
  | Event.stored now _ => now

/-- The statement `t.OnEvent()` of `run`: the value returned is discarded; `none` when
the call panics. -/
def fire (h : HookOracle) (s : Session) : Option Session :=
  match OnEvent s.tr (h s.hooked.length) with
  | none => none
  | some (cmd, _) => some { s with hooked := s.hooked ++ [cmd] }

/-- Lines 166-170: the statements after the `for` loop. -/
def finish (h : HookOracle) (s : Session) : Session :=
  let s1 := { s with notified := s.notified ++ [("Pomo", "Pomo session has completed!")] }
  let s2 := { s1 with tr := SetState s1.tr State.COMPLETE }
  match fire h s2 with
  | none => { s2 with loc := Loc.panicked }
  | some s3 => { s3 with loc := Loc.returned none }

/-- Lines 98-113: the loop test and, when it holds, the start of a pomodoro up to the
`select`. -/
def loopHead (h : HookOracle) (s : Session) (now : Time) : Session :=
  if s.tr.count < s.tr.nPomodoros then
    let pomodoro : Pomodoro := { Start := now, End := 0 }
    let s1 := { s with tr := SetState s.tr State.RUNNING }
    match fire h s1 with
    | none => { s1 with loc := Loc.panicked }
    | some s2 =>
      { s2 with
          tr := { s2.tr with started := pomodoro.Start }
          loc := Loc.selecting pomodoro now s2.tr.duration }
  else finish h s

/-- Lines 115-117 and 144-147: the timer case, then the call of the store. -/
def onTimer (s : Session) (pomodoro : Pomodoro) (now : Time) : Session :=
  let t1 := { s.tr with stopped := now }
  let t2 := { t1 with count := t1.count + 1 }
  let p : Pomodoro := { pomodoro with End := now }
  { s with tr := t2, appends := s.appends ++ [(t2.taskID, p)], loc := Loc.storing p }

/-- Lines 122-131: the pause case up to the second receive on `t.pause`. -/
def onPause (h : HookOracle) (s : Session) (pomodoro : Pomodoro) (now : Time) : Session :=
  let remaining := TimeRemaining s.tr now
  let s1 := { s with tr := SetState s.tr State.PAUSED }
  match fire h s1 with
  | none => { s1 with loc := Loc.panicked }
  | some s2 => { s2 with loc := Loc.paused pomodoro remaining }

/-- Lines 132-142: after the second receive on `t.pause`, back to the `select`. -/
def onResume (h : HookOracle) (s : Session) (pomodoro : Pomodoro) (remaining : Duration)
    (now : Time) : Session :=
  let t1 := { s.tr with started := now }
  let t2 := { t1 with duration := remaining }
  let s1 := { s with tr := SetState t2 State.RUNNING }
  match fire h s1 with
  | none => { s1 with loc := Loc.panicked }
  | some s2 => { s2 with loc := Loc.selecting pomodoro now remaining }

/-- Lines 148-164 (and 166-170 through `finish`): what follows the store transaction. -/
def afterStore (h : HookOracle) (s : Session) (err : Option Error) : Session :=
  let s0 := { s with results := s.results ++ [err] }
  match err with
  | some e => { s0 with loc := Loc.returned (some e) }
  | none =>
    if s0.tr.count = s0.tr.nPomodoros then finish h s0
    else
      let s1 := { s0 with tr := SetState s0.tr State.BREAKING }
      match fire h s1 with
      | none => { s1 with loc := Loc.panicked }
      | some s2 =>
        let s3 := { s2 with notified := s2.notified ++ [("Pomo", "It is time to take a break!")] }
        { s3 with tr := { s3.tr with duration := s3.tr.origDuration }, loc := Loc.breaking }

/-- One reaction of the loop. `none`: the loop is not waiting for this event (a timer
that is not due, a channel nobody receives from, a loop that has ended). -/
def step (h : HookOracle) (s : Session) : Event → Option Session
  | Event.start now =>
    match s.loc with
    | Loc.created => some (loopHead h s now)
    | _ => none
  | Event.timerC now =>
    match s.loc with
    | Loc.selecting pomodoro armed dur =>
      if armed + dur ≤ now then some (onTimer s pomodoro now) else none
    | _ => none
  | Event.toggle now =>
    match s.loc with
    | Loc.selecting _ _ _ => some s
    | Loc.breaking => some (loopHead h s now)
    | _ => none
  | Event.pause now =>
    match s.loc with
    | Loc.selecting pomodoro _ _ => some (onPause h s pomodoro now)
    | Loc.paused pomodoro remaining => some (onResume h s pomodoro remaining now)
    | _ => none
  | Event.stored _ err =>
    match s.loc with
    | Loc.storing _ => some (afterStore h s err)
    | _ => none

/-- The loop driven by a sequence of events. -/
def exec (h : HookOracle) (s : Session) : List Event → Option Session
  | [] => some s
  | ev :: evs =>
    match step h s ev with
    | none => none
    | some s1 => exec h s1 evs

/-- The method `Toggle`, called at instant `now`: under the mutex, a value is sent on
`t.toggle` when the state is `BREAKING`. `none`: the send blocks, nobody receives. -/
def Toggle (h : HookOracle) (s : Session) (now : Time) : Option Session :=
  if s.tr.state = State.BREAKING then step h s (Event.toggle now) else some s

/-- The method `Pause`, called at instant `now`: under the mutex, a value is sent on
`t.pause` when the state is `PAUSED` or `RUNNING`. `none`: the send blocks. -/
def Pause (h : HookOracle) (s : Session) (now : Time) : Option Session :=
  if s.tr.state = State.PAUSED ∨ s.tr.state = State.RUNNING then step h s (Event.pause now)
  else some s

/-- The instants of the events never go back, starting from `t`. -/
def nonDecreasing (t : Time) : List Event → Bool
  | [] => true
  | ev :: evs => decide (t ≤ ev.time) && nonDecreasing ev.time evs

/-- Every store transaction among the events succeeds. -/
def storeOk : List Event → Bool
  | [] => true
  | Event.stored _ (some _) :: _ => false
  | _ :: evs => storeOk evs

/-- The session of a runner on which `Start()` has not been called yet. -/
def Session.init (t : TaskRunner) : Session := { tr := t }

/-! ## Invariants of the loop -/

/-- What the control point of the loop says about the state and the count. -/
def locOk (s : Session) : Loc → Prop
  | Loc.created => s.tr.state = State.CREATED ∧ s.appends = []
  | Loc.selecting _ _ _ => s.tr.state = State.RUNNING ∧ s.tr.count < s.tr.nPomodoros
  | Loc.paused _ _ => s.tr.state = State.PAUSED ∧ s.tr.count < s.tr.nPomodoros
  | Loc.storing _ => s.tr.state = State.RUNNING ∧ s.tr.count ≤ s.tr.nPomodoros
  | Loc.breaking => s.tr.state = State.BREAKING ∧ s.tr.count < s.tr.nPomodoros
  | Loc.returned none => s.tr.state = State.COMPLETE
  | Loc.returned (some _) => s.tr.state = State.RUNNING
  | Loc.panicked => True

/-- The counting invariant of the loop of a runner that started with count `k` and
target `N`. -/
structure Counted (k N : Int) (s : Session) : Prop where
  target : s.tr.nPomodoros = N
  count : s.tr.count = k + s.appends.length
  loc : locOk s s.loc
  complete : s.tr.state = State.COMPLETE → s.appends.length = (N - k).toNat

/-- The pomodoro being timed did not start after `now`. -/
def openOk (now : Time) : Loc → Prop
  | Loc.selecting p _ _ => p.Start ≤ now
  | Loc.paused p _ => p.Start ≤ now
  | _ => True

/-- The timing invariant of the loop at instant `now`. -/
structure Timed (now : Time) (s : Session) : Prop where
  closed : ∀ p ∈ s.appends, p.2.Start ≤ p.2.End
  running : openOk now s.loc

/-- The number of intervals whose store append has succeeded. -/
def Session.succeeded (s : Session) : Nat := (s.results.filter (fun r => r.isNone)).length

/-- How the append calls issued relate to the appends that succeeded: one more while the
store transaction is under way and after it failed. -/
def pendingOk (s : Session) : Loc → Prop
  | Loc.storing _ => s.appends.length = s.succeeded + 1
  | Loc.returned (some _) => s.appends.length = s.succeeded + 1
  | _ => s.appends.length = s.succeeded

/-- The instant of the last timer expiry among the events, `t0` when there is none. -/
def lastExpiry (t0 : Time) : List Event → Time
  | [] => t0
  | Event.timerC now :: evs => lastExpiry now evs
  | _ :: evs => lastExpiry t0 evs

/-- The instant of the last event, `t0` when there is none. -/
def lastTime (t0 : Time) : List Event → Time
  | [] => t0
  | ev :: evs => lastTime ev.time evs

/-- The timer the loop waits for is the one `started` and `duration` describe, and once
it has fired the instant `started + duration` is past. -/
def dueOk (now : Time) (s : Session) : Loc → Prop
  | Loc.selecting _ armed dur => armed = s.tr.started ∧ dur = s.tr.duration
  | Loc.storing _ => s.tr.started + s.tr.duration ≤ now
  | Loc.returned none => s.appends ≠ [] → s.tr.started + s.tr.duration ≤ now
  | Loc.panicked =>
    s.tr.state = State.COMPLETE → s.appends ≠ [] → s.tr.started + s.tr.duration ≤ now
  | _ => True

/-- A loop that is blocked past its first hook execution has a hook command. -/
def hookOk (s : Session) : Loc → Prop
  | Loc.created => True
  | Loc.returned _ => True
  | Loc.panicked => True
  | _ => s.tr.onEvent ≠ []

/-! ## Concrete sessions -/

/-- A hook command that always succeeds. -/
def hookSucceeds : HookOracle := fun _ _ => none

/-- A hook command that always fails. -/
def hookFails : HookOracle := fun _ _ => some "exit status 1"

/-- A configuration with a hook command. -/
def hookConfig : Config :=
  { DBPath := "pomo.db", IconPath := "icon.png", OnEvent := ["sh", "hook.sh"] }

/-- A task of two intervals of ten seconds, one of them already completed. -/
def resumedTask : Task :=
  { ID := 7, Message := "write", NPomodoros := 2, Duration := 10 * Second,
    Pomodoros := [{ Start := 0, End := 10 * Second }] }

/-- The events of the remaining interval of `resumedTask`. -/
def resumedEvents : List Event :=
  [Event.start (20 * Second), Event.timerC (30 * Second), Event.stored (30 * Second) none]

/-- A task of two intervals of ten seconds, none completed yet. -/
def freshTask : Task := { ID := 3, Message := "read", NPomodoros := 2, Duration := 10 * Second }

/-- The runner `NewTaskRunner freshTask hookConfig` builds. -/
def freshRunner : TaskRunner :=
  { count := 0, taskID := 3, taskMessage := "read", nPomodoros := 2,
    origDuration := 10 * Second, state := State.CREATED, duration := 10 * Second,
    onEvent := ["sh", "hook.sh"] }

/-- A whole session of `freshRunner`: the first interval is paused after 3 s for 40 s. -/
def freshEvents : List Event :=
  [Event.start 0, Event.pause (3 * Second), Event.pause (43 * Second),
    Event.timerC (50 * Second), Event.stored (51 * Second) none,
    Event.toggle (60 * Second), Event.timerC (70 * Second), Event.stored (71 * Second) none]

/-- The session `freshEvents` leads to. -/
def freshFinal : Session :=
  { tr :=
      { count := 2, taskID := 3, taskMessage := "read", nPomodoros := 2,
        origDuration := 10 * Second, state := State.COMPLETE, started := 60 * Second,
        stopped := 70 * Second, duration := 10 * Second, onEvent := ["sh", "hook.sh"] }
    loc := Loc.returned none
    appends :=
      [(3, { Start := 0, End := 50 * Second }), (3, { Start := 60 * Second, End := 70 * Second })]
    results := [none, none]
    notified := [("Pomo", "It is time to take a break!"), ("Pomo", "Pomo session has completed!")]
    hooked :=
      [{ app := "sh", args := ["hook.sh"], pomoState := State.RUNNING },
        { app := "sh", args := ["hook.sh"], pomoState := State.PAUSED },
        { app := "sh", args := ["hook.sh"], pomoState := State.RUNNING },
        { app := "sh", args := ["hook.sh"], pomoState := State.BREAKING },
        { app := "sh", args := ["hook.sh"], pomoState := State.RUNNING },
        { app := "sh", args := ["hook.sh"], pomoState := State.COMPLETE }] }

/-- The session of `freshRunner` once the timer of the first interval has fired and the
store transaction is under way. -/
def storingSession : Session :=
  { tr :=
      { count := 1, taskID := 3, taskMessage := "read", nPomodoros := 2,
        origDuration := 10 * Second, state := State.RUNNING, started := 0,
        stopped := 10 * Second, duration := 10 * Second, onEvent := ["sh", "hook.sh"] }
    loc := Loc.storing { Start := 0, End := 10 * Second }
    appends := [(3, { Start := 0, End := 10 * Second })]
    hooked := [{ app := "sh", args := ["hook.sh"], pomoState := State.RUNNING }] }

/-- A task of one interval of 25 minutes. -/
def singleTask : Task := { ID := 1, Message := "focus", NPomodoros := 1, Duration := 1500 * Second }

/-- The runner `NewTaskRunner singleTask hookConfig` builds. -/
def singleRunner : TaskRunner :=
  { count := 0, taskID := 1, taskMessage := "focus", nPomodoros := 1,
    origDuration := 1500 * Second, state := State.CREATED, duration := 1500 * Second,
    onEvent := ["sh", "hook.sh"] }

/-- The session of `freshRunner` just after `Start()` at instant 0: the first interval is
being timed. -/
def runningSession : Session :=
  { tr :=
      { count := 0, taskID := 3, taskMessage := "read", nPomodoros := 2,
        origDuration := 10 * Second, state := State.RUNNING, started := 0,
        duration := 10 * Second, onEvent := ["sh", "hook.sh"] }
    loc := Loc.selecting { Start := 0, End := 0 } 0 (10 * Second)
    hooked := [{ app := "sh", args := ["hook.sh"], pomoState := State.RUNNING }] }

/-- The first interval of `freshRunner` completes at 10 s, the break ends at 20 s and the
second interval is paused at 23 s. -/
def pausedEvents : List Event :=
  [Event.start 0, Event.timerC (10 * Second), Event.stored (10 * Second) none,
    Event.toggle (20 * Second), Event.pause (23 * Second)]

/-- The session `pausedEvents` leads to. -/
def pausedSession : Session :=
  { tr :=
      { count := 1, taskID := 3, taskMessage := "read", nPomodoros := 2,
        origDuration := 10 * Second, state := State.PAUSED, started := 20 * Second,
        stopped := 10 * Second, duration := 10 * Second, onEvent := ["sh", "hook.sh"] }
    loc := Loc.paused { Start := 20 * Second, End := 0 } (7 * Second)
    appends := [(3, { Start := 0, End := 10 * Second })]
    results := [none]
    notified := [("Pomo", "It is time to take a break!")]
    hooked :=
      [{ app := "sh", args := ["hook.sh"], pomoState := State.RUNNING },
        { app := "sh", args := ["hook.sh"], pomoState := State.BREAKING },
        { app := "sh", args := ["hook.sh"], pomoState := State.RUNNING },
        { app := "sh", args := ["hook.sh"], pomoState := State.PAUSED }] }

/-- The only interval of `singleRunner` completes and is stored at 1500 s. -/
def singleEvents : List Event :=
  [Event.start 0, Event.timerC (1500 * Second), Event.stored (1500 * Second) none]

/-- The session `singleEvents` leads to. -/
def singleFinal : Session :=
  { tr :=
      { count := 1, taskID := 1, taskMessage := "focus", nPomodoros := 1,
        origDuration := 1500 * Second, state := State.COMPLETE, started := 0,
        stopped := 1500 * Second, duration := 1500 * Second, onEvent := ["sh", "hook.sh"] }
    loc := Loc.returned none
    appends := [(1, { Start := 0, End := 1500 * Second })]
    results := [none]
    notified := [("Pomo", "Pomo session has completed!")]
    hooked :=
      [{ app := "sh", args := ["hook.sh"], pomoState := State.RUNNING },
        { app := "sh", args := ["hook.sh"], pomoState := State.COMPLETE }] }

/-- The first interval of `freshRunner`, paused at 3 s and resumed at 43 s, up to the
expiry of its timer at 50 s. -/
def resumedFirstEvents : List Event :=
  [Event.start 0, Event.pause (3 * Second), Event.pause (43 * Second),
    Event.timerC (50 * Second)]

/-- The session `resumedFirstEvents` leads to: the working duration is the 7 s that
remained at the pause. -/
def resumedFirstSession : Session :=
  { tr :=
      { count := 1, taskID := 3, taskMessage := "read", nPomodoros := 2,
        origDuration := 10 * Second, state := State.RUNNING, started := 43 * Second,
        stopped := 50 * Second, duration := 7 * Second, onEvent := ["sh", "hook.sh"] }
    loc := Loc.storing { Start := 0, End := 50 * Second }
    appends := [(3, { Start := 0, End := 50 * Second })]
    hooked :=
      [{ app := "sh", args := ["hook.sh"], pomoState := State.RUNNING },
        { app := "sh", args := ["hook.sh"], pomoState := State.PAUSED },
        { app := "sh", args := ["hook.sh"], pomoState := State.RUNNING }] }

/-! ## Sequences of states, notifications and counts -/

/-- The states one more interval adds to the hook, `n` times: `BREAKING, RUNNING`. -/
def breakCycles : Nat → List State
  | 0 => []
  | n + 1 => State.BREAKING :: State.RUNNING :: breakCycles n

/-- The state sequence of a session of `N` intervals without pause:
`RUNNING, (BREAKING, RUNNING) × (N - 1), COMPLETE`. -/
def expectedStates (N : Nat) : List State :=
  State.RUNNING :: breakCycles (N - 1) ++ [State.COMPLETE]

/-- The states the hook has been executed with, oldest first. -/
def Session.states (s : Session) : List State := s.hooked.map HookCall.pomoState

/-- No pause request among the events. -/
def noPause : List Event → Bool
  | [] => true
  | Event.pause _ :: _ => false
  | _ :: evs => noPause evs

/-- What the hook has seen at each control point of a loop that started from count 0 and
was never paused. -/
def tracedOk (s : Session) : Loc → Prop
  | Loc.created => s.hooked = []
  | Loc.selecting _ _ _ => s.states = State.RUNNING :: breakCycles s.appends.length
  | Loc.paused _ _ => True
  | Loc.storing _ =>
    1 ≤ s.appends.length ∧ s.states = State.RUNNING :: breakCycles (s.appends.length - 1)
  | Loc.breaking =>
    1 ≤ s.appends.length ∧
      s.states = State.RUNNING :: breakCycles (s.appends.length - 1) ++ [State.BREAKING]
  | Loc.returned none =>
    1 ≤ s.appends.length →
      s.states = State.RUNNING :: breakCycles (s.appends.length - 1) ++ [State.COMPLETE]
  | Loc.returned (some _) => True
  | Loc.panicked => s.appends = []

/-- The bounds on the count of a runner that started with count `k`. -/
structure Ranked (k : Int) (s : Session) : Prop where
  lower : k ≤ s.tr.count
  upper : s.tr.count ≤ s.tr.nPomodoros
  breaking : s.tr.state = State.BREAKING → k < s.tr.count ∧ s.tr.count < s.tr.nPomodoros
  complete : s.tr.state = State.COMPLETE → s.tr.count = s.tr.nPomodoros
  storing : ∀ p, s.loc = Loc.storing p → k < s.tr.count

/-- A whole session of `freshRunner` without any pause. -/
def quietEvents : List Event :=
  [Event.start 0, Event.timerC (10 * Second), Event.stored (10 * Second) none,
    Event.toggle (20 * Second), Event.timerC (30 * Second), Event.stored (30 * Second) none]

/-- The session `quietEvents` leads to. -/
def quietFinal : Session :=
  { tr :=
      { count := 2, taskID := 3, taskMessage := "read", nPomodoros := 2,
        origDuration := 10 * Second, state := State.COMPLETE, started := 20 * Second,
        stopped := 30 * Second, duration := 10 * Second, onEvent := ["sh", "hook.sh"] }
    loc := Loc.returned none
    appends :=
      [(3, { Start := 0, End := 10 * Second }),
        (3, { Start := 20 * Second, End := 30 * Second })]
    results := [none, none]
    notified := [("Pomo", "It is time to take a break!"), ("Pomo", "Pomo session has completed!")]
    hooked :=
      [{ app := "sh", args := ["hook.sh"], pomoState := State.RUNNING },
        { app := "sh", args := ["hook.sh"], pomoState := State.BREAKING },
        { app := "sh", args := ["hook.sh"], pomoState := State.RUNNING },
        { app := "sh", args := ["hook.sh"], pomoState := State.COMPLETE }] }

/-- The notification sent when a break begins. -/
def breakNote : String × String := ("Pomo", "It is time to take a break!")

/-- The notification sent when the session completes. -/
def completeNote : String × String := ("Pomo", "Pomo session has completed!")

/-- What the notifier has received at each control point of the loop. -/
def notedOk (s : Session) : Loc → Prop
  | Loc.created => s.notified = []
  | Loc.selecting _ _ _ => s.notified = List.replicate s.appends.length breakNote
  | Loc.paused _ _ => s.notified = List.replicate s.appends.length breakNote
  | Loc.storing _ =>
    1 ≤ s.appends.length ∧ s.notified = List.replicate (s.appends.length - 1) breakNote
  | Loc.breaking => s.notified = List.replicate s.appends.length breakNote
  | Loc.returned none =>
    1 ≤ s.appends.length →
      s.notified = List.replicate (s.appends.length - 1) breakNote ++ [completeNote]
  | Loc.returned (some _) => True
  | Loc.panicked => s.appends = []

/-- The `int64` arithmetic of `TimeRemaining` read at `now` neither saturates nor wraps. -/
def noOverflow (t : TaskRunner) (now : Time) : Prop :=
  minDuration ≤ now - t.started ∧ now - t.started ≤ maxDuration ∧
    minDuration ≤ t.duration - (now - t.started) ∧ t.duration - (now - t.started) ≤ maxDuration

/-! ## `Pause()` and `Toggle()` called while the loop runs

The two methods take the mutex `t.mu`, test the state and send on an unbuffered channel:
the send blocks, the mutex held, until the loop receives from that channel. -/

/-- The mutex `t.mu`: free, or held by a call of `Pause()` or of `Toggle()` that is
blocked in its send. -/
inductive Guard where
  | free
  | pauseSending
  | toggleSending
  deriving DecidableEq, Repr

/-- The loop together with the mutex. -/
structure System where
  session : Session
  guard : Guard := Guard.free
  deriving DecidableEq, Repr

/-- What can happen next. -/
inductive Action where
  /-- The loop goes on by itself: `Start()`, the timer fires, the store returns. -/
  | loop (ev : Event)
  /-- Some goroutine calls `Pause()` at `now`. -/
  | callPause (now : Time)
  /-- Some goroutine calls `Toggle()` at `now`. -/
  | callToggle (now : Time)
  /-- The loop receives, at `now`, the value of the call blocked in its send. -/
  | receive (now : Time)
  deriving DecidableEq, Repr

/-- One move of the system. `none`: the move is not possible now (a call of `Pause()` or
`Toggle()` while the mutex is held waits in `Lock()`; a receive needs a blocked sender
and a loop that is at a receive from that very channel). -/
def sysStep (h : HookOracle) (sys : System) : Action → Option System
  | Action.loop ev =>
    match ev with
    | Event.pause _ => none
    | Event.toggle _ => none
    | _ =>
      match step h sys.session ev with
      | none => none
      | some s1 => some { sys with session := s1 }
  | Action.callPause now =>
    match sys.guard with
    | Guard.free =>
      if sys.session.tr.state = State.PAUSED ∨ sys.session.tr.state = State.RUNNING then
        match step h sys.session (Event.pause now) with
        | some s1 => some { sys with session := s1 }
        | none => some { sys with guard := Guard.pauseSending }
      else some sys
    | _ => none
  | Action.callToggle now =>
    match sys.guard with
    | Guard.free =>
      if sys.session.tr.state = State.BREAKING then
        match step h sys.session (Event.toggle now) with
        | some s1 => some { sys with session := s1 }
        | none => some { sys with guard := Guard.toggleSending }
      else some sys
    | _ => none
  | Action.receive now =>
    match sys.guard with
    | Guard.free => none
    | Guard.pauseSending =>
      match step h sys.session (Event.pause now) with
      | some s1 => some { session := s1, guard := Guard.free }
      | none => none
    | Guard.toggleSending =>
      match step h sys.session (Event.toggle now) with
      | some s1 => some { session := s1, guard := Guard.free }
      | none => none

/-- The system driven by a sequence of moves. -/
def sysExec (h : HookOracle) (sys : System) : List Action → Option System
  | [] => some sys
  | act :: acts =>
    match sysStep h sys act with
    | none => none
    | some sys1 => sysExec h sys1 acts

/-- The first interval of `freshRunner` ends at 10 s; `Pause()` is called while the store
transaction runs; the store then returns. -/
def raceActions : List Action :=
  [Action.loop (Event.start 0), Action.loop (Event.timerC (10 * Second)),
    Action.callPause (10 * Second), Action.loop (Event.stored (11 * Second) none)]

/-- The system `raceActions` leads to: the loop waits for the break to be acknowledged,
the mutex is held by the blocked `Pause()`. -/
def raceSystem : System :=
  { session :=
      { tr :=
          { count := 1, taskID := 3, taskMessage := "read", nPomodoros := 2,
            origDuration := 10 * Second, state := State.BREAKING, started := 0,
            stopped := 10 * Second, duration := 10 * Second, onEvent := ["sh", "hook.sh"] }
        loc := Loc.breaking
        appends := [(3, { Start := 0, End := 10 * Second })]
        results := [none]
        notified := [("Pomo", "It is time to take a break!")]
        hooked :=
          [{ app := "sh", args := ["hook.sh"], pomoState := State.RUNNING },
            { app := "sh", args := ["hook.sh"], pomoState := State.BREAKING }] }
    guard := Guard.pauseSending }

/-! ## Pause and resume cycles within one interval -/

/-- The events of successive pause and resume cycles, each given by the instant of the
pause and the instant of the resume. -/
def pauseCycles : List (Time × Time) → List Event
  | [] => []
  | (tp, tr) :: cs => Event.pause tp :: Event.pause tr :: pauseCycles cs

/-- The time the interval has been running up to its last pause: from the started
reference to the pause, cycle after cycle. -/
def ranFor (started : Time) : List (Time × Time) → Duration
  | [] => 0
  | (tp, tr) :: cs => (tp - started) + ranFor tr cs

/-- The remaining time a pause at `now` captures from a working duration and a started
reference: the expression of `TimeRemaining`. -/
def remainingOf (dur : Duration) (started now : Time) : Duration :=
  Truncate (wrap64 (dur - Since now started)) Second

/-- Every pause is taken while the timer is not yet due: the time elapsed since the
started reference is between 0 and the working duration. -/
def pausedInTime (dur : Duration) (started : Time) : List (Time × Time) → Prop
  | [] => True
  | (tp, tr) :: cs =>
    0 ≤ tp - started ∧ tp - started ≤ dur ∧ pausedInTime (remainingOf dur started tp) tr cs

/-- Two pause and resume cycles of `runningSession`: paused at 3 s until 43 s, then at
44.5 s until 50 s. -/
def twoCycles : List (Time × Time) :=
  [(3 * Second, 43 * Second), (44500000000, 50 * Second)]

/-- The number of timer expirations among the events. -/
def expiries : List Event → Nat
  | [] => 0
  | Event.timerC _ :: evs => expiries evs + 1
  | _ :: evs => expiries evs

/-- The rest of the session after `pausedEvents`: the second interval is resumed at 30 s
with 7 s left, completes and is stored. -/
def restEvents : List Event :=
  [Event.pause (30 * Second), Event.timerC (37 * Second), Event.stored (37 * Second) none]

/-- The session `restEvents` leads to from `pausedSession`. -/
def restFinal : Session :=
  { tr :=
      { count := 2, taskID := 3, taskMessage := "read", nPomodoros := 2,
        origDuration := 10 * Second, state := State.COMPLETE, started := 30 * Second,
        stopped := 37 * Second, duration := 7 * Second, onEvent := ["sh", "hook.sh"] }
    loc := Loc.returned none
    appends :=
      [(3, { Start := 0, End := 10 * Second }),
        (3, { Start := 20 * Second, End := 37 * Second })]
    results := [none, none]
    notified := [("Pomo", "It is time to take a break!"), ("Pomo", "Pomo session has completed!")]
    hooked :=
      [{ app := "sh", args := ["hook.sh"], pomoState := State.RUNNING },
        { app := "sh", args := ["hook.sh"], pomoState := State.BREAKING },
        { app := "sh", args := ["hook.sh"], pomoState := State.RUNNING },
        { app := "sh", args := ["hook.sh"], pomoState := State.PAUSED },
        { app := "sh", args := ["hook.sh"], pomoState := State.RUNNING },
        { app := "sh", args := ["hook.sh"], pomoState := State.COMPLETE }] }

/-- The runner `NewTaskRunner resumedTask hookConfig` builds: it starts from count 1. -/
def resumedRunner : TaskRunner :=
  { count := 1, taskID := 7, taskMessage := "write", nPomodoros := 2,
    origDuration := 10 * Second, state := State.CREATED, duration := 10 * Second,
    onEvent := ["sh", "hook.sh"] }

/-! ## Task filters (`pkg/filter/task.go`)

Go strings are taken as sequences of characters; the separator `=` is a single byte, so
splitting on it byte by byte or character by character is the same. -/

/-- The fields of `chars` between the occurrences of `sep`; `cur` is the field being
read, last character first. -/
def splitChars (sep : Char) : List Char → List Char → List (List Char)
  | cur, [] => [cur.reverse]
  | cur, c :: cs =>
    if c = sep then cur.reverse :: splitChars sep [] cs else splitChars sep (c :: cur) cs

/-- The function `strings.Split(s, sep)` for a separator of one character: the
substrings of `s` between the separators, one more than there are separators. -/
def Split (s : String) (sep : Char) : List String :=
  (splitChars sep [] s.data).map String.mk

/-- The function `strings.Contains(s, substr)`. -/
def Contains (s substr : String) : Bool := decide (substr.data <:+: s.data)

/-- The type `TaskFilter`. -/
abbrev TaskFilter := Task → Bool

def TaskFilterByName (name : String) : TaskFilter :=
  fun t => Contains t.Message name

def TaskFilterByTag (key value : String) : TaskFilter :=
  fun t => t.Tags.HasTag key && t.Tags.Get key == value

def TaskFilterByID (id : Int) : TaskFilter :=
  fun t => t.ID == id

/-- The body of the loop of `TaskFiltersFromStrings`: the filters after `arg`. -/
def addFilters (filters : List TaskFilter) (arg : String) : List TaskFilter :=
  match Split arg '=' with
  | [s] => (filters ++ [TaskFilterByTag s ""]) ++ [TaskFilterByName s]
  | [k, v] => filters ++ [TaskFilterByTag k v]
  | _ => filters

def TaskFiltersFromStrings (args : List String) : List TaskFilter :=
  args.foldl addFilters []

/-- The number of `=` in an argument. -/
def equalSigns (arg : String) : Nat := arg.data.count '='

/-- A task tagged `project=pomo`, with an empty tag `urgent`. -/
def taggedTask : Task :=
  { ID := 9, Message := "fix the urgent bug", NPomodoros := 1, Duration := 1500 * Second,
    Tags := { kvs := [("project", "pomo"), ("urgent", "")] } }

/-! ## The hook statement and the frame of each reaction -/

theorem fire_eq (h : HookOracle) (s : Session) :
    fire h s =
      match s.tr.onEvent with
      | [] => none
      | app :: args =>
        some { s with hooked := s.hooked ++ [{ app := app, args := args, pomoState := s.tr.state }] } := by
  unfold fire OnEvent
  cases hon : s.tr.onEvent with
  | nil => rfl
  | cons app args =>
    simp only []
    cases h s.hooked.length { app := app, args := args, pomoState := s.tr.state } <;> rfl

theorem fire_some {h : HookOracle} {s s1 : Session} (hf : fire h s = some s1) :
    ∃ cmd, s1 = { s with hooked := s.hooked ++ [cmd] } ∧ cmd.pomoState = s.tr.state ∧
      s.tr.onEvent ≠ [] := by
  rw [fire_eq] at hf
  cases hon : s.tr.onEvent with
  | nil => simp [hon] at hf
  | cons app args =>
    simp only [hon, Option.some.injEq] at hf
    exact ⟨_, hf.symm, rfl, by simp⟩

theorem fire_none {h : HookOracle} {s : Session} (hf : fire h s = none) :
    s.tr.onEvent = [] := by
  rw [fire_eq] at hf
  cases hon : s.tr.onEvent with
  | nil => rfl
  | cons app args => simp [hon] at hf

theorem finish_appends (h : HookOracle) (s : Session) : (finish h s).appends = s.appends := by
  unfold finish
  cases hon : s.tr.onEvent <;> simp [fire_eq, SetState, hon]

theorem loopHead_appends (h : HookOracle) (s : Session) (now : Time) :
    (loopHead h s now).appends = s.appends := by
  unfold loopHead
  split
  · cases hon : s.tr.onEvent <;> simp [fire_eq, SetState, hon]
  · exact finish_appends h s

theorem afterStore_appends (h : HookOracle) (s : Session) (err : Option Error) :
    (afterStore h s err).appends = s.appends := by
  unfold afterStore
  cases err with
  | some e => rfl
  | none =>
    simp only []
    split
    · rw [finish_appends]
    · cases hon : s.tr.onEvent <;> simp [fire_eq, SetState, hon]

theorem onPause_appends (h : HookOracle) (s : Session) (p : Pomodoro) (now : Time) :
    (onPause h s p now).appends = s.appends := by
  unfold onPause
  cases hon : s.tr.onEvent <;> simp [fire_eq, SetState, hon]

theorem onResume_appends (h : HookOracle) (s : Session) (p : Pomodoro) (r : Duration)
    (now : Time) : (onResume h s p r now).appends = s.appends := by
  unfold onResume
  cases hon : s.tr.onEvent <;> simp [fire_eq, SetState, hon]

/-! ## The counting invariant -/

theorem counted_init (t : TaskRunner) (ht : t.state = State.CREATED) :
    Counted t.count t.nPomodoros (Session.init t) := by
  constructor <;> simp [Session.init, locOk, ht]

theorem counted_loopHead {k N : Int} {h : HookOracle} {s : Session} (now : Time)
    (hs : Counted k N s) (hloc : s.loc = Loc.created ∨ s.loc = Loc.breaking) :
    Counted k N (loopHead h s now) := by
  obtain ⟨h1, h2, h3, h4⟩ := hs
  unfold loopHead
  by_cases hc : s.tr.count < s.tr.nPomodoros
  · rw [if_pos hc]
    cases hon : s.tr.onEvent <;> rcases hloc with hloc | hloc <;> rw [hloc] at h3 <;>
      constructor <;> simp_all [fire_eq, SetState, locOk]
  · rw [if_neg hc]
    cases hon : s.tr.onEvent <;> rcases hloc with hloc | hloc <;> rw [hloc] at h3 <;>
      constructor <;> simp_all [finish, fire_eq, SetState, locOk] <;> omega

theorem counted_onTimer {k N : Int} {s : Session} (p : Pomodoro) (a : Time) (d : Duration)
    (now : Time) (hs : Counted k N s) (hloc : s.loc = Loc.selecting p a d) :
    Counted k N (onTimer s p now) := by
  obtain ⟨h1, h2, h3, h4⟩ := hs
  rw [hloc] at h3
  constructor <;> simp_all [onTimer, locOk] <;> omega

theorem counted_afterStore {k N : Int} {h : HookOracle} {s : Session} (p : Pomodoro)
    (err : Option Error) (hs : Counted k N s) (hloc : s.loc = Loc.storing p) :
    Counted k N (afterStore h s err) := by
  obtain ⟨h1, h2, h3, h4⟩ := hs
  rw [hloc] at h3
  unfold afterStore
  cases err with
  | some e => constructor <;> simp_all [locOk]
  | none =>
    simp only []
    by_cases hc : s.tr.count = s.tr.nPomodoros
    · rw [if_pos hc]
      cases hon : s.tr.onEvent <;> constructor <;>
        simp_all [finish, fire_eq, SetState, locOk]
    · rw [if_neg hc]
      cases hon : s.tr.onEvent <;> constructor <;>
        simp_all [fire_eq, SetState, locOk]
      all_goals omega

theorem counted_step {k N : Int} {h : HookOracle} {s s1 : Session} {ev : Event}
    (hs : Counted k N s) (hstep : step h s ev = some s1) : Counted k N s1 := by
  cases ev <;> cases hloc : s.loc <;>
    simp only [step, hloc, reduceCtorEq, Option.some.injEq] at hstep
  case start.created => exact hstep ▸ counted_loopHead _ hs (Or.inl hloc)
  case toggle.breaking => exact hstep ▸ counted_loopHead _ hs (Or.inr hloc)
  case toggle.selecting => exact hstep ▸ hs
  case timerC.selecting p a d =>
    split at hstep
    · simp only [Option.some.injEq] at hstep
      exact hstep ▸ counted_onTimer p a d _ hs hloc
    · simp at hstep
  case stored.storing p => exact hstep ▸ counted_afterStore p _ hs hloc
  all_goals
    obtain ⟨h1, h2, h3, h4⟩ := hs
    rw [hloc] at h3
    subst hstep
    cases hon : s.tr.onEvent <;> constructor <;>
      simp_all [onPause, onResume, fire_eq, SetState, locOk]

theorem counted_exec {k N : Int} {h : HookOracle} (evs : List Event) {s s1 : Session}
    (hs : Counted k N s) (hrun : exec h s evs = some s1) : Counted k N s1 := by
  induction evs generalizing s with
  | nil => simp only [exec, Option.some.injEq] at hrun; exact hrun ▸ hs
  | cons ev evs ih =>
    simp only [exec] at hrun
    cases hstep : step h s ev with
    | none => simp [hstep] at hrun
    | some s2 =>
      rw [hstep] at hrun
      exact ih (counted_step hs hstep) hrun

/-! ## The timing invariant -/

theorem timed_init (t : TaskRunner) (now : Time) : Timed now (Session.init t) := by
  constructor <;> simp [Session.init, openOk]

theorem openOk_finish (h : HookOracle) (s : Session) (now : Time) :
    openOk now (finish h s).loc := by
  unfold finish
  cases hon : s.tr.onEvent <;> simp [fire_eq, SetState, hon, openOk]

theorem openOk_loopHead (h : HookOracle) (s : Session) (now : Time) :
    openOk now (loopHead h s now).loc := by
  unfold loopHead
  split
  · cases hon : s.tr.onEvent <;> simp [fire_eq, SetState, hon, openOk]
  · exact openOk_finish h s now

theorem openOk_afterStore (h : HookOracle) (s : Session) (err : Option Error) (now : Time) :
    openOk now (afterStore h s err).loc := by
  unfold afterStore
  cases err with
  | some e => simp [openOk]
  | none =>
    simp only []
    split
    · exact openOk_finish h _ now
    · cases hon : s.tr.onEvent <;> simp [fire_eq, SetState, hon, openOk]

theorem timed_step {h : HookOracle} {s s1 : Session} {ev : Event} {now : Time}
    (hs : Timed now s) (hle : now ≤ ev.time) (hstep : step h s ev = some s1) :
    Timed ev.time s1 := by
  obtain ⟨h1, h2⟩ := hs
  cases ev <;> cases hloc : s.loc <;>
    simp only [step, hloc, reduceCtorEq, Option.some.injEq] at hstep <;>
    rw [hloc] at h2 <;> simp only [Event.time] at hle ⊢
  case timerC.selecting p a d =>
    split at hstep
    · simp only [Option.some.injEq] at hstep
      subst hstep
      simp only [openOk] at h2
      constructor
      · intro q hq
        simp only [onTimer, List.mem_append, List.mem_singleton] at hq
        rcases hq with hq | hq
        · exact h1 q hq
        · subst hq
          exact le_trans h2 hle
      · simp [onTimer, openOk]
    · simp at hstep
  case start.created =>
    subst hstep
    exact ⟨by rw [loopHead_appends]; exact h1, openOk_loopHead h s _⟩
  case toggle.breaking =>
    subst hstep
    exact ⟨by rw [loopHead_appends]; exact h1, openOk_loopHead h s _⟩
  case toggle.selecting =>
    subst hstep
    refine ⟨h1, ?_⟩
    rw [hloc]
    exact le_trans h2 hle
  case stored.storing p =>
    subst hstep
    exact ⟨by rw [afterStore_appends]; exact h1, openOk_afterStore h s _ _⟩
  case pause.selecting p a d =>
    subst hstep
    refine ⟨by rw [onPause_appends]; exact h1, ?_⟩
    have h3 : p.Start ≤ _ := le_trans h2 hle
    unfold onPause
    cases hon : s.tr.onEvent <;> simp [fire_eq, SetState, hon, openOk, h3]
  case pause.paused p r =>
    subst hstep
    refine ⟨by rw [onResume_appends]; exact h1, ?_⟩
    have h3 : p.Start ≤ _ := le_trans h2 hle
    unfold onResume
    cases hon : s.tr.onEvent <;> simp [fire_eq, SetState, hon, openOk, h3]

theorem timed_exec {h : HookOracle} (evs : List Event) {s s1 : Session} {now : Time}
    (hs : Timed now s) (hclock : nonDecreasing now evs = true)
    (hrun : exec h s evs = some s1) : ∀ p ∈ s1.appends, p.2.Start ≤ p.2.End := by
  induction evs generalizing s now with
  | nil => simp only [exec, Option.some.injEq] at hrun; exact hrun ▸ hs.closed
  | cons ev evs ih =>
    simp only [exec] at hrun
    simp only [nonDecreasing, Bool.and_eq_true, decide_eq_true_eq] at hclock
    cases hstep : step h s ev with
    | none => simp [hstep] at hrun
    | some s2 =>
      rw [hstep] at hrun
      exact ih (timed_step hs hclock.1 hstep) hclock.2 hrun

/-! ## A loop that has returned -/

theorem step_returned (h : HookOracle) {s : Session} {err : Option Error}
    (hloc : s.loc = Loc.returned err) (ev : Event) : step h s ev = none := by
  cases ev <;> simp [step, hloc]

theorem exec_returned (h : HookOracle) {s s1 : Session} {err : Option Error}
    (hloc : s.loc = Loc.returned err) (evs : List Event) (hrun : exec h s evs = some s1) :
    evs = [] ∧ s1 = s := by
  cases evs with
  | nil => simp only [exec, Option.some.injEq] at hrun; exact ⟨rfl, hrun.symm⟩
  | cons ev evs => simp [exec, step_returned h hloc ev] at hrun

/-! ## Append calls and appends that succeeded -/

theorem pending_init (t : TaskRunner) : pendingOk (Session.init t) (Session.init t).loc := by
  simp [Session.init, pendingOk, Session.succeeded]

theorem pending_loopHead {h : HookOracle} {s : Session} (now : Time)
    (hs : s.appends.length = s.succeeded) :
    pendingOk (loopHead h s now) (loopHead h s now).loc := by
  unfold loopHead
  split <;> cases hon : s.tr.onEvent <;>
    simp_all [finish, fire_eq, SetState, pendingOk, Session.succeeded]

theorem pending_afterStore {h : HookOracle} {s : Session} (err : Option Error)
    (hs : s.appends.length = s.succeeded + 1) :
    pendingOk (afterStore h s err) (afterStore h s err).loc := by
  unfold afterStore
  cases err with
  | some e => simp_all [pendingOk, Session.succeeded, List.filter_append]
  | none =>
    simp only []
    split <;> cases hon : s.tr.onEvent <;>
      simp_all [finish, fire_eq, SetState, pendingOk, Session.succeeded, List.filter_append]

theorem pending_step {h : HookOracle} {s s1 : Session} {ev : Event}
    (hs : pendingOk s s.loc) (hstep : step h s ev = some s1) : pendingOk s1 s1.loc := by
  cases ev <;> cases hloc : s.loc <;>
    simp only [step, hloc, reduceCtorEq, Option.some.injEq] at hstep <;>
    rw [hloc] at hs <;> simp only [pendingOk] at hs
  case start.created => exact hstep ▸ pending_loopHead _ hs
  case toggle.breaking => exact hstep ▸ pending_loopHead _ hs
  case toggle.selecting => subst hstep; rw [hloc]; exact hs
  case timerC.selecting p a d =>
    split at hstep
    · simp only [Option.some.injEq] at hstep
      subst hstep
      simp_all [onTimer, pendingOk, Session.succeeded]
    · simp at hstep
  case stored.storing p => exact hstep ▸ pending_afterStore _ hs
  all_goals
    subst hstep
    cases hon : s.tr.onEvent <;>
      simp_all [onPause, onResume, fire_eq, SetState, pendingOk, Session.succeeded]

theorem pending_exec {h : HookOracle} (evs : List Event) {s s1 : Session}
    (hs : pendingOk s s.loc) (hrun : exec h s evs = some s1) : pendingOk s1 s1.loc := by
  induction evs generalizing s with
  | nil => simp only [exec, Option.some.injEq] at hrun; exact hrun ▸ hs
  | cons ev evs ih =>
    simp only [exec] at hrun
    cases hstep : step h s ev with
    | none => simp [hstep] at hrun
    | some s2 =>
      rw [hstep] at hrun
      exact ih (pending_step hs hstep) hrun

/-! ## Durations, remaining time, pause and resume -/

theorem truncate_second (d : Int) :
    (Truncate d Second : Int) =
      if 0 ≤ d then d - d % 1000000000 else d + (-d) % 1000000000 := by
  unfold Truncate Second
  rw [if_neg (by decide)]
  split
  · rw [Int.tmod_eq_emod ‹0 ≤ d› (by decide)]
  · have hneg : Int.tmod d 1000000000 = -Int.tmod (-d) 1000000000 := by
      rw [Int.tmod_def, Int.tmod_def, Int.neg_tdiv]; ring
    rw [hneg, Int.tmod_eq_emod (by omega) (by decide), sub_neg_eq_add]

theorem wrap64_range (x : Int) :
    -9223372036854775808 ≤ wrap64 x ∧ wrap64 x ≤ 9223372036854775807 := by
  unfold wrap64
  omega

theorem wrap64_eq {x : Int} (h1 : -9223372036854775808 ≤ x) (h2 : x ≤ 9223372036854775807) :
    wrap64 x = x := by
  unfold wrap64
  omega

theorem since_self (t : Time) : Since t t = 0 := by
  simp [Since, Sub, minDuration, maxDuration]

/-- A captured remaining time is an `int64` number of whole seconds, so reading the
remaining time at the very instant of the resume gives it back. -/
theorem timeRemaining_resumed (t t2 : TaskRunner) (tp tr : Time) (hs : t2.started = tr)
    (hd : t2.duration = TimeRemaining t tp) : TimeRemaining t2 tr = TimeRemaining t tp := by
  have hw := wrap64_range (t.duration - Since tp t.started)
  unfold TimeRemaining at hd ⊢
  rw [hs, hd]
  simp only [since_self, sub_zero]
  generalize wrap64 (t.duration - Since tp t.started) = x at hw ⊢
  have hx := truncate_second x
  unfold Duration at hx
  have hr : wrap64 (Truncate x Second) = Truncate x Second := by
    apply wrap64_eq <;> (split at hx <;> omega)
  rw [hr, truncate_second (Truncate x Second)]
  unfold Duration
  split at hx <;> split <;> omega

theorem onPause_eq (h : HookOracle) (s : Session) (p : Pomodoro) (now : Time) (app : String)
    (args : List String) (hon : s.tr.onEvent = app :: args) :
    onPause h s p now =
      { s with
          tr := SetState s.tr State.PAUSED
          hooked := s.hooked ++ [{ app := app, args := args, pomoState := State.PAUSED }]
          loc := Loc.paused p (TimeRemaining s.tr now) } := by
  simp [onPause, fire_eq, SetState, hon]

theorem onResume_eq (h : HookOracle) (s : Session) (p : Pomodoro) (r : Duration) (now : Time)
    (app : String) (args : List String) (hon : s.tr.onEvent = app :: args) :
    onResume h s p r now =
      { s with
          tr := SetState { s.tr with started := now, duration := r } State.RUNNING
          hooked := s.hooked ++ [{ app := app, args := args, pomoState := State.RUNNING }]
          loc := Loc.selecting p now r } := by
  simp [onResume, fire_eq, SetState, hon]

theorem exec_append (h : HookOracle) (s : Session) (evs1 evs2 : List Event) :
    exec h s (evs1 ++ evs2) = (exec h s evs1).bind (fun s1 => exec h s1 evs2) := by
  induction evs1 generalizing s with
  | nil => rfl
  | cons ev evs ih =>
    simp only [List.cons_append, exec]
    cases step h s ev with
    | none => rfl
    | some s1 => exact ih s1

theorem exec_toggles (h : HookOracle) {s : Session} {p : Pomodoro} {a : Time} {d : Duration}
    (hloc : s.loc = Loc.selecting p a d) (ts : List Time) :
    exec h s (ts.map Event.toggle) = some s := by
  induction ts with
  | nil => rfl
  | cons t ts ih => simp only [List.map_cons, exec, step, hloc]; exact ih

/-! ## What each reaction does to the runner; the stopped reference -/

theorem finish_tr (h : HookOracle) (s : Session) :
    (finish h s).tr = SetState s.tr State.COMPLETE := by
  unfold finish
  cases hon : s.tr.onEvent <;> simp [fire_eq, SetState, hon]

theorem loopHead_tr (h : HookOracle) (s : Session) (now : Time) :
    (loopHead h s now).tr =
      if s.tr.count < s.tr.nPomodoros then
        if s.tr.onEvent = [] then SetState s.tr State.RUNNING
        else { SetState s.tr State.RUNNING with started := now }
      else SetState s.tr State.COMPLETE := by
  unfold loopHead
  split
  · cases hon : s.tr.onEvent <;> simp [fire_eq, SetState, hon]
  · exact finish_tr h s

theorem afterStore_tr (h : HookOracle) (s : Session) (err : Option Error) :
    (afterStore h s err).tr =
      match err with
      | some _ => s.tr
      | none =>
        if s.tr.count = s.tr.nPomodoros then SetState s.tr State.COMPLETE
        else if s.tr.onEvent = [] then SetState s.tr State.BREAKING
        else { SetState s.tr State.BREAKING with duration := s.tr.origDuration } := by
  unfold afterStore
  cases err with
  | some e => rfl
  | none =>
    simp only []
    split
    · rw [finish_tr]
    · cases hon : s.tr.onEvent <;> simp [fire_eq, SetState, hon]

theorem onPause_tr (h : HookOracle) (s : Session) (p : Pomodoro) (now : Time) :
    (onPause h s p now).tr = SetState s.tr State.PAUSED := by
  unfold onPause
  cases hon : s.tr.onEvent <;> simp [fire_eq, SetState, hon]

theorem onResume_tr (h : HookOracle) (s : Session) (p : Pomodoro) (r : Duration)
    (now : Time) :
    (onResume h s p r now).tr =
      SetState { s.tr with started := now, duration := r } State.RUNNING := by
  unfold onResume
  cases hon : s.tr.onEvent <;> simp [fire_eq, SetState, hon]

theorem step_stopped {h : HookOracle} {s s1 : Session} {ev : Event}
    (hstep : step h s ev = some s1) : s1.tr.stopped = lastExpiry s.tr.stopped [ev] := by
  cases ev <;> cases hloc : s.loc <;>
    simp only [step, hloc, reduceCtorEq, Option.some.injEq] at hstep <;>
    simp only [lastExpiry]
  case timerC.selecting p a d =>
    split at hstep
    · simp only [Option.some.injEq] at hstep
      subst hstep
      rfl
    · simp at hstep
  case start.created => subst hstep; rw [loopHead_tr]; split <;> [split; skip] <;> rfl
  case toggle.breaking => subst hstep; rw [loopHead_tr]; split <;> [split; skip] <;> rfl
  case toggle.selecting => subst hstep; rfl
  case stored.storing p =>
    subst hstep
    rw [afterStore_tr]
    split <;> [skip; (split <;> [skip; split])] <;> rfl
  case pause.selecting => subst hstep; rw [onPause_tr]; rfl
  case pause.paused => subst hstep; rw [onResume_tr]; rfl

theorem lastExpiry_cons (t0 : Time) (ev : Event) (evs : List Event) :
    lastExpiry t0 (ev :: evs) = lastExpiry (lastExpiry t0 [ev]) evs := by
  cases ev <;> rfl

theorem exec_stopped {h : HookOracle} (evs : List Event) {s s1 : Session}
    (hrun : exec h s evs = some s1) : s1.tr.stopped = lastExpiry s.tr.stopped evs := by
  induction evs generalizing s with
  | nil => simp only [exec, Option.some.injEq] at hrun; subst hrun; rfl
  | cons ev evs ih =>
    simp only [exec] at hrun
    cases hstep : step h s ev with
    | none => simp [hstep] at hrun
    | some s2 =>
      rw [hstep] at hrun
      rw [ih hrun, step_stopped hstep, ← lastExpiry_cons]

/-! ## The timer and the remaining time -/

theorem finish_loc (h : HookOracle) (s : Session) :
    (finish h s).loc = Loc.returned none ∨ (finish h s).loc = Loc.panicked := by
  unfold finish
  cases hon : s.tr.onEvent <;> simp [fire_eq, SetState, hon]

theorem due_finish (h : HookOracle) (s : Session) (now : Time)
    (hs : s.appends ≠ [] → s.tr.started + s.tr.duration ≤ now) :
    dueOk now (finish h s) (finish h s).loc := by
  have ha := finish_appends h s
  have ht := finish_tr h s
  rcases finish_loc h s with hl | hl <;> rw [hl] <;> simp only [dueOk, ha, ht, SetState]
  · exact hs
  · exact fun _ => hs

theorem due_loopHead (h : HookOracle) (s : Session) (now : Time)
    (hs : s.tr.count < s.tr.nPomodoros ∨ s.appends = []) :
    dueOk now (loopHead h s now) (loopHead h s now).loc := by
  by_cases hc : s.tr.count < s.tr.nPomodoros
  · unfold loopHead
    rw [if_pos hc]
    cases hon : s.tr.onEvent <;> simp [fire_eq, SetState, hon, dueOk]
  · have he : loopHead h s now = finish h s := by unfold loopHead; rw [if_neg hc]
    rw [he]
    exact due_finish h s now (fun hne => absurd (hs.resolve_left hc) hne)

theorem due_afterStore (h : HookOracle) (s : Session) (err : Option Error) (now : Time)
    (hs : s.tr.started + s.tr.duration ≤ now) :
    dueOk now (afterStore h s err) (afterStore h s err).loc := by
  unfold afterStore
  cases err with
  | some e => simp [dueOk]
  | none =>
    simp only []
    split
    · exact due_finish h _ now (fun _ => hs)
    · cases hon : s.tr.onEvent <;> simp [fire_eq, SetState, hon, dueOk]

theorem due_step {k N : Int} {h : HookOracle} {s s1 : Session} {ev : Event} {now : Time}
    (hc : Counted k N s) (hs : dueOk now s s.loc) (hle : now ≤ ev.time)
    (hstep : step h s ev = some s1) : dueOk ev.time s1 s1.loc := by
  have hl := hc.loc
  cases ev <;> cases hloc : s.loc <;>
    simp only [step, hloc, reduceCtorEq, Option.some.injEq] at hstep <;>
    rw [hloc] at hs hl <;> simp only [Event.time] at hle ⊢ <;>
    simp only [dueOk, locOk] at hs hl
  case start.created => subst hstep; exact due_loopHead h s _ (Or.inr hl.2)
  case toggle.breaking => subst hstep; exact due_loopHead h s _ (Or.inl hl.2)
  case toggle.selecting => subst hstep; rw [hloc]; exact hs
  case timerC.selecting p a d =>
    split at hstep
    · simp only [Option.some.injEq] at hstep
      subst hstep
      simp only [onTimer, dueOk]
      rw [← hs.1, ← hs.2]
      assumption
    · simp at hstep
  case stored.storing p =>
    subst hstep
    exact due_afterStore h s _ _ (le_trans hs hle)
  case pause.selecting =>
    subst hstep
    unfold onPause
    cases hon : s.tr.onEvent <;> simp [fire_eq, SetState, hon, dueOk]
  case pause.paused =>
    subst hstep
    unfold onResume
    cases hon : s.tr.onEvent <;> simp [fire_eq, SetState, hon, dueOk]

theorem due_exec {k N : Int} {h : HookOracle} (evs : List Event) {s s1 : Session} {now : Time}
    (hc : Counted k N s) (hs : dueOk now s s.loc) (hclock : nonDecreasing now evs = true)
    (hrun : exec h s evs = some s1) : dueOk (lastTime now evs) s1 s1.loc := by
  induction evs generalizing s now with
  | nil => simp only [exec, Option.some.injEq] at hrun; exact hrun ▸ hs
  | cons ev evs ih =>
    simp only [exec] at hrun
    simp only [nonDecreasing, Bool.and_eq_true, decide_eq_true_eq] at hclock
    cases hstep : step h s ev with
    | none => simp [hstep] at hrun
    | some s2 =>
      rw [hstep] at hrun
      exact ih (counted_step hc hstep) (due_step hc hs hclock.1 hstep) hclock.2 hrun

theorem sub_exact (a b : Int) (h1 : -9223372036854775808 ≤ a - b)
    (h2 : a - b ≤ 9223372036854775807) : Sub a b = a - b := by
  unfold Sub minDuration maxDuration Duration Time
  split
  · omega
  · split
    · omega
    · rfl

/-- Without overflow of the `int64` arithmetic, `TimeRemaining` is the exact difference
truncated to whole seconds. -/
theorem timeRemaining_exact (t : TaskRunner) (now : Time)
    (h1 : minDuration ≤ now - t.started) (h2 : now - t.started ≤ maxDuration)
    (h3 : minDuration ≤ t.duration - (now - t.started))
    (h4 : t.duration - (now - t.started) ≤ maxDuration) :
    TimeRemaining t now = Truncate (t.duration - (now - t.started)) Second := by
  unfold TimeRemaining Since
  rw [sub_exact now t.started h1 h2, wrap64_eq h3 h4]

/-! ## The hook results are discarded; the configuration is constant -/

theorem finish_hook (h1 h2 : HookOracle) (s : Session) : finish h1 s = finish h2 s := by
  simp only [finish, fire_eq]

theorem loopHead_hook (h1 h2 : HookOracle) (s : Session) (now : Time) :
    loopHead h1 s now = loopHead h2 s now := by
  simp only [loopHead, fire_eq, finish_hook h1 h2]

theorem afterStore_hook (h1 h2 : HookOracle) (s : Session) (err : Option Error) :
    afterStore h1 s err = afterStore h2 s err := by
  simp only [afterStore, fire_eq, finish_hook h1 h2]

theorem onPause_hook (h1 h2 : HookOracle) (s : Session) (p : Pomodoro) (now : Time) :
    onPause h1 s p now = onPause h2 s p now := by
  simp only [onPause, fire_eq]

theorem onResume_hook (h1 h2 : HookOracle) (s : Session) (p : Pomodoro) (r : Duration)
    (now : Time) : onResume h1 s p r now = onResume h2 s p r now := by
  simp only [onResume, fire_eq]

theorem step_hook (h1 h2 : HookOracle) (s : Session) (ev : Event) :
    step h1 s ev = step h2 s ev := by
  cases ev <;>
    simp only [step, loopHead_hook h1 h2, afterStore_hook h1 h2, onPause_hook h1 h2,
      onResume_hook h1 h2]

theorem exec_hook (h1 h2 : HookOracle) (s : Session) (evs : List Event) :
    exec h1 s evs = exec h2 s evs := by
  induction evs generalizing s with
  | nil => rfl
  | cons ev evs ih =>
    simp only [exec, step_hook h1 h2 s ev]
    cases step h2 s ev with
    | none => rfl
    | some s1 => exact ih s1

theorem step_error_source {h : HookOracle} {s s1 : Session} {ev : Event} {e : Error}
    (hstep : step h s ev = some s1) (hret : s1.loc = Loc.returned (some e)) :
    ∃ now, ev = Event.stored now (some e) := by
  cases ev <;> cases hloc : s.loc <;>
    simp only [step, hloc, reduceCtorEq, Option.some.injEq] at hstep
  case timerC.selecting p a d =>
    split at hstep
    · simp only [Option.some.injEq] at hstep
      subst hstep
      simp [onTimer] at hret
    · simp at hstep
  case start.created =>
    subst hstep
    unfold loopHead finish at hret
    split at hret <;> cases hon : s.tr.onEvent <;> simp [fire_eq, SetState, hon] at hret
  case toggle.breaking =>
    subst hstep
    unfold loopHead finish at hret
    split at hret <;> cases hon : s.tr.onEvent <;> simp [fire_eq, SetState, hon] at hret
  case toggle.selecting => subst hstep; rw [hloc] at hret; simp at hret
  case stored.storing now err p =>
    subst hstep
    unfold afterStore finish at hret
    cases err with
    | some e1 =>
      simp only [Loc.returned.injEq, Option.some.injEq] at hret
      exact ⟨now, by rw [hret]⟩
    | none =>
      simp only [] at hret
      split at hret <;> cases hon : s.tr.onEvent <;> simp [fire_eq, SetState, hon] at hret
  case pause.selecting =>
    subst hstep
    unfold onPause at hret
    cases hon : s.tr.onEvent <;> simp [fire_eq, SetState, hon] at hret
  case pause.paused =>
    subst hstep
    unfold onResume at hret
    cases hon : s.tr.onEvent <;> simp [fire_eq, SetState, hon] at hret

theorem exec_error_source {h : HookOracle} (evs : List Event) {s s1 : Session} {e : Error}
    (hrun : exec h s evs = some s1) (hret : s1.loc = Loc.returned (some e)) :
    s.loc = Loc.returned (some e) ∨ ∃ now, Event.stored now (some e) ∈ evs := by
  induction evs generalizing s with
  | nil =>
    simp only [exec, Option.some.injEq] at hrun
    subst hrun
    exact Or.inl hret
  | cons ev evs ih =>
    simp only [exec] at hrun
    cases hstep : step h s ev with
    | none => simp [hstep] at hrun
    | some s2 =>
      rw [hstep] at hrun
      rcases ih hrun with h2 | ⟨now, hmem⟩
      · obtain ⟨now, hev⟩ := step_error_source hstep h2
        exact Or.inr ⟨now, by rw [hev]; exact List.mem_cons_self _ _⟩
      · exact Or.inr ⟨now, List.mem_cons_of_mem _ hmem⟩

theorem step_config {h : HookOracle} {s s1 : Session} {ev : Event}
    (hstep : step h s ev = some s1) :
    s1.tr.origDuration = s.tr.origDuration ∧ s1.tr.onEvent = s.tr.onEvent ∧
      s1.tr.nPomodoros = s.tr.nPomodoros ∧ s1.tr.taskID = s.tr.taskID := by
  cases ev <;> cases hloc : s.loc <;>
    simp only [step, hloc, reduceCtorEq, Option.some.injEq] at hstep
  case timerC.selecting p a d =>
    split at hstep
    · simp only [Option.some.injEq] at hstep
      subst hstep
      simp [onTimer]
    · simp at hstep
  case start.created =>
    subst hstep; rw [loopHead_tr]; split <;> [split; skip] <;> simp [SetState]
  case toggle.breaking =>
    subst hstep; rw [loopHead_tr]; split <;> [split; skip] <;> simp [SetState]
  case toggle.selecting => subst hstep; simp
  case stored.storing p =>
    subst hstep
    rw [afterStore_tr]
    split <;> [skip; (split <;> [skip; split])] <;> simp [SetState]
  case pause.selecting => subst hstep; rw [onPause_tr]; simp [SetState]
  case pause.paused => subst hstep; rw [onResume_tr]; simp [SetState]

theorem exec_config {h : HookOracle} (evs : List Event) {s s1 : Session}
    (hrun : exec h s evs = some s1) :
    s1.tr.origDuration = s.tr.origDuration ∧ s1.tr.onEvent = s.tr.onEvent ∧
      s1.tr.nPomodoros = s.tr.nPomodoros ∧ s1.tr.taskID = s.tr.taskID := by
  induction evs generalizing s with
  | nil => simp only [exec, Option.some.injEq] at hrun; subst hrun; simp
  | cons ev evs ih =>
    simp only [exec] at hrun
    cases hstep : step h s ev with
    | none => simp [hstep] at hrun
    | some s2 =>
      rw [hstep] at hrun
      have h1 := step_config hstep
      have h2 := ih hrun
      exact ⟨h2.1.trans h1.1, h2.2.1.trans h1.2.1, h2.2.2.1.trans h1.2.2.1,
        h2.2.2.2.trans h1.2.2.2⟩

theorem hookOk_step {h : HookOracle} {s s1 : Session} {ev : Event}
    (hs : hookOk s s.loc) (hstep : step h s ev = some s1) : hookOk s1 s1.loc := by
  cases ev <;> cases hloc : s.loc <;>
    simp only [step, hloc, reduceCtorEq, Option.some.injEq] at hstep <;>
    rw [hloc] at hs <;> simp only [hookOk] at hs
  case timerC.selecting p a d =>
    split at hstep
    · simp only [Option.some.injEq] at hstep
      subst hstep
      simpa [onTimer, hookOk] using hs
    · simp at hstep
  case start.created =>
    subst hstep
    unfold loopHead finish
    split <;> cases hon : s.tr.onEvent <;> simp [fire_eq, SetState, hon, hookOk]
  case toggle.breaking =>
    subst hstep
    unfold loopHead finish
    split <;> cases hon : s.tr.onEvent <;> simp [fire_eq, SetState, hon, hookOk]
  case toggle.selecting => subst hstep; rw [hloc]; exact hs
  case stored.storing now err p =>
    subst hstep
    unfold afterStore finish
    cases err with
    | some e1 => simp [hookOk]
    | none =>
      simp only []
      split <;> cases hon : s.tr.onEvent <;> simp [fire_eq, SetState, hon, hookOk]
  case pause.selecting =>
    subst hstep
    unfold onPause
    cases hon : s.tr.onEvent <;> simp [fire_eq, SetState, hon, hookOk]
  case pause.paused =>
    subst hstep
    unfold onResume
    cases hon : s.tr.onEvent <;> simp [fire_eq, SetState, hon, hookOk]

theorem hookOk_exec {h : HookOracle} (evs : List Event) {s s1 : Session}
    (hs : hookOk s s.loc) (hrun : exec h s evs = some s1) : hookOk s1 s1.loc := by
  induction evs generalizing s with
  | nil => simp only [exec, Option.some.injEq] at hrun; exact hrun ▸ hs
  | cons ev evs ih =>
    simp only [exec] at hrun
    cases hstep : step h s ev with
    | none => simp [hstep] at hrun
    | some s2 =>
      rw [hstep] at hrun
      exact ih (hookOk_step hs hstep) hrun

/-! ## The concrete runners are built by `NewTaskRunner` -/

theorem freshRunner_built : NewTaskRunner freshTask hookConfig none = Except.ok freshRunner :=
  rfl

theorem singleRunner_built :
    NewTaskRunner singleTask hookConfig none = Except.ok singleRunner :=
  rfl

/-! ## The bounds on the count -/

theorem breakCycles_snoc (n : Nat) :
    breakCycles n ++ [State.BREAKING, State.RUNNING] = breakCycles (n + 1) := by
  induction n with
  | zero => rfl
  | succ n ih => simp only [breakCycles, List.cons_append, ih]

theorem ranked_init (t : TaskRunner) (ht : t.state = State.CREATED)
    (hle : t.count ≤ t.nPomodoros) : Ranked t.count (Session.init t) := by
  constructor <;> simp [Session.init, ht, hle]

theorem ranked_step {k N : Int} {h : HookOracle} {s s1 : Session} {ev : Event}
    (hc : Counted k N s) (hs : Ranked k s) (hstep : step h s ev = some s1) :
    Ranked k s1 := by
  obtain ⟨r1, r2, r3, r4, r5⟩ := hs
  have hl := hc.loc
  cases ev <;> cases hloc : s.loc <;>
    simp only [step, hloc, reduceCtorEq, Option.some.injEq] at hstep <;>
    rw [hloc] at hl <;> simp only [locOk] at hl
  case timerC.selecting p a d =>
    split at hstep
    · simp only [Option.some.injEq] at hstep
      subst hstep
      constructor <;> simp_all [onTimer] <;> omega
    · simp at hstep
  case start.created =>
    subst hstep
    unfold loopHead
    by_cases hlt : s.tr.count < s.tr.nPomodoros
    · rw [if_pos hlt]
      cases hon : s.tr.onEvent <;> constructor <;> simp_all [fire_eq, SetState]
    · rw [if_neg hlt]
      cases hon : s.tr.onEvent <;> constructor <;> simp_all [finish, fire_eq, SetState] <;>
        omega
  case toggle.breaking =>
    subst hstep
    unfold loopHead
    rw [if_pos hl.2]
    cases hon : s.tr.onEvent <;> constructor <;> simp_all [fire_eq, SetState]
  case toggle.selecting => subst hstep; exact ⟨r1, r2, r3, r4, r5⟩
  case stored.storing now err p =>
    have hk := r5 p hloc
    subst hstep
    unfold afterStore
    cases err with
    | some e => constructor <;> simp_all
    | none =>
      simp only []
      by_cases heq : s.tr.count = s.tr.nPomodoros
      · rw [if_pos heq]
        cases hon : s.tr.onEvent <;> constructor <;> simp_all [finish, fire_eq, SetState]
      · rw [if_neg heq]
        cases hon : s.tr.onEvent <;> constructor <;> simp_all [fire_eq, SetState] <;> omega
  case pause.selecting =>
    subst hstep
    unfold onPause
    cases hon : s.tr.onEvent <;> constructor <;> simp_all [fire_eq, SetState]
  case pause.paused =>
    subst hstep
    unfold onResume
    cases hon : s.tr.onEvent <;> constructor <;> simp_all [fire_eq, SetState]

theorem ranked_exec {k N : Int} {h : HookOracle} (evs : List Event) {s s1 : Session}
    (hc : Counted k N s) (hs : Ranked k s) (hrun : exec h s evs = some s1) : Ranked k s1 := by
  induction evs generalizing s with
  | nil => simp only [exec, Option.some.injEq] at hrun; exact hrun ▸ hs
  | cons ev evs ih =>
    simp only [exec] at hrun
    cases hstep : step h s ev with
    | none => simp [hstep] at hrun
    | some s2 =>
      rw [hstep] at hrun
      exact ih (counted_step hc hstep) (ranked_step hc hs hstep) hrun

/-! ## The states the hook sees -/

theorem traced_init (t : TaskRunner) : tracedOk (Session.init t) (Session.init t).loc := by
  simp [Session.init, tracedOk]

theorem traced_step {N : Int} {h : HookOracle} {s s1 : Session} {ev : Event}
    (hc : Counted 0 N s) (hk : hookOk s s.loc) (ht : tracedOk s s.loc)
    (hev : ∀ tp, ev ≠ Event.pause tp) (hstep : step h s ev = some s1) :
    tracedOk s1 s1.loc := by
  have hl := hc.loc
  cases ev <;> cases hloc : s.loc <;>
    simp only [step, hloc, reduceCtorEq, Option.some.injEq] at hstep <;>
    rw [hloc] at hl hk ht <;> simp only [locOk, hookOk, tracedOk] at hl hk ht
  case timerC.selecting p a d =>
    split at hstep
    · simp only [Option.some.injEq] at hstep
      subst hstep
      simp only [onTimer, tracedOk, Session.states, List.length_append, List.length_singleton,
        Nat.add_sub_cancel]
      exact ⟨by omega, ht⟩
    · simp at hstep
  case start.created =>
    subst hstep
    unfold loopHead
    by_cases hlt : s.tr.count < s.tr.nPomodoros
    · rw [if_pos hlt]
      cases hon : s.tr.onEvent <;>
        simp [fire_eq, SetState, hon, tracedOk, Session.states, hl.2, ht, breakCycles]
    · rw [if_neg hlt]
      cases hon : s.tr.onEvent <;>
        simp [finish, fire_eq, SetState, hon, tracedOk, Session.states, hl.2, ht]
  case toggle.breaking =>
    subst hstep
    unfold loopHead
    rw [if_pos hl.2]
    cases hon : s.tr.onEvent with
    | nil => exact absurd hon hk
    | cons app args =>
      simp only [fire_eq, SetState, hon, tracedOk, Session.states, List.map_append,
        List.map_cons, List.map_nil]
      have h2 := ht.2
      simp only [Session.states] at h2
      rw [h2]
      have h3 := breakCycles_snoc (s.appends.length - 1)
      rw [Nat.sub_add_cancel ht.1] at h3
      rw [← h3]
      simp
  case toggle.selecting => subst hstep; rw [hloc]; exact ht
  case stored.storing now err p =>
    subst hstep
    unfold afterStore
    cases err with
    | some e => simp [tracedOk]
    | none =>
      simp only []
      cases hon : s.tr.onEvent with
      | nil => exact absurd hon hk
      | cons app args =>
        have h2 := ht.2
        simp only [Session.states] at h2
        split <;>
          simp [finish, fire_eq, SetState, hon, tracedOk, Session.states, h2, ht.1]
  case pause.selecting => exact absurd rfl (hev _)
  case pause.paused => exact absurd rfl (hev _)

theorem traced_exec {N : Int} {h : HookOracle} (evs : List Event) {s s1 : Session}
    (hc : Counted 0 N s) (hk : hookOk s s.loc) (ht : tracedOk s s.loc)
    (hquiet : noPause evs = true) (hrun : exec h s evs = some s1) : tracedOk s1 s1.loc := by
  induction evs generalizing s with
  | nil => simp only [exec, Option.some.injEq] at hrun; exact hrun ▸ ht
  | cons ev evs ih =>
    simp only [exec] at hrun
    have hev : ∀ tp, ev ≠ Event.pause tp := by
      intro tp he
      rw [he] at hquiet
      simp [noPause] at hquiet
    have hq : noPause evs = true := by
      cases ev <;> first | exact absurd rfl (hev _) | simpa [noPause] using hquiet
    cases hstep : step h s ev with
    | none => simp [hstep] at hrun
    | some s2 =>
      rw [hstep] at hrun
      exact ih (counted_step hc hstep) (hookOk_step hk hstep) (traced_step hc hk ht hev hstep)
        hq hrun

/-! ## The notifications -/

theorem noted_init (t : TaskRunner) : notedOk (Session.init t) (Session.init t).loc := by
  simp [Session.init, notedOk]

theorem replicate_snoc {α : Type} (n : Nat) (a : α) (hn : 1 ≤ n) :
    List.replicate (n - 1) a ++ [a] = List.replicate n a := by
  have h1 : List.replicate n a = List.replicate (n - 1 + 1) a := by
    rw [Nat.sub_add_cancel hn]
  rw [h1, List.replicate_succ']

theorem noted_step {k N : Int} {h : HookOracle} {s s1 : Session} {ev : Event}
    (hc : Counted k N s) (hk : hookOk s s.loc) (ht : notedOk s s.loc)
    (hstep : step h s ev = some s1) : notedOk s1 s1.loc := by
  have hl := hc.loc
  cases ev <;> cases hloc : s.loc <;>
    simp only [step, hloc, reduceCtorEq, Option.some.injEq] at hstep <;>
    rw [hloc] at hl hk ht <;> simp only [locOk, hookOk, notedOk] at hl hk ht
  case timerC.selecting p a d =>
    split at hstep
    · simp only [Option.some.injEq] at hstep
      subst hstep
      simp only [onTimer, notedOk, List.length_append, List.length_singleton,
        Nat.add_sub_cancel]
      exact ⟨by omega, ht⟩
    · simp at hstep
  case start.created =>
    subst hstep
    unfold loopHead
    by_cases hlt : s.tr.count < s.tr.nPomodoros
    · rw [if_pos hlt]
      cases hon : s.tr.onEvent <;> simp [fire_eq, SetState, hon, notedOk, hl.2, ht]
    · rw [if_neg hlt]
      cases hon : s.tr.onEvent <;> simp [finish, fire_eq, SetState, hon, notedOk, hl.2, ht]
  case toggle.breaking =>
    subst hstep
    unfold loopHead
    rw [if_pos hl.2]
    cases hon : s.tr.onEvent with
    | nil => exact absurd hon hk
    | cons app args => simp [fire_eq, SetState, hon, notedOk, ht]
  case toggle.selecting => subst hstep; rw [hloc]; exact ht
  case stored.storing now err p =>
    subst hstep
    unfold afterStore
    cases err with
    | some e => simp [notedOk]
    | none =>
      simp only []
      cases hon : s.tr.onEvent with
      | nil => exact absurd hon hk
      | cons app args =>
        split
        · simp [finish, fire_eq, SetState, hon, notedOk, ht.2, completeNote]
        · simp only [fire_eq, SetState, hon, notedOk, ht.2]
          exact replicate_snoc _ _ ht.1
  case pause.selecting =>
    subst hstep
    cases hon : s.tr.onEvent with
    | nil => exact absurd hon hk
    | cons app args => rw [onPause_eq h s _ _ app args hon]; exact ht
  case pause.paused =>
    subst hstep
    cases hon : s.tr.onEvent with
    | nil => exact absurd hon hk
    | cons app args => rw [onResume_eq h s _ _ _ app args hon]; exact ht

theorem noted_exec {k N : Int} {h : HookOracle} (evs : List Event) {s s1 : Session}
    (hc : Counted k N s) (hk : hookOk s s.loc) (ht : notedOk s s.loc)
    (hrun : exec h s evs = some s1) : notedOk s1 s1.loc := by
  induction evs generalizing s with
  | nil => simp only [exec, Option.some.injEq] at hrun; exact hrun ▸ ht
  | cons ev evs ih =>
    simp only [exec] at hrun
    cases hstep : step h s ev with
    | none => simp [hstep] at hrun
    | some s2 =>
      rw [hstep] at hrun
      exact ih (counted_step hc hstep) (hookOk_step hk hstep) (noted_step hc hk ht hstep) hrun

theorem step_pause_notified {h : HookOracle} {s s1 : Session} {tp : Time}
    (hstep : step h s (Event.pause tp) = some s1) : s1.notified = s.notified := by
  cases hloc : s.loc <;> simp only [step, hloc, reduceCtorEq, Option.some.injEq] at hstep
  case selecting =>
    subst hstep
    unfold onPause
    cases hon : s.tr.onEvent <;> simp [fire_eq, SetState, hon]
  case paused =>
    subst hstep
    unfold onResume
    cases hon : s.tr.onEvent <;> simp [fire_eq, SetState, hon]

theorem loopHead_notified {h : HookOracle} {s : Session} (now : Time)
    (hlt : s.tr.count < s.tr.nPomodoros) : (loopHead h s now).notified = s.notified := by
  unfold loopHead
  rw [if_pos hlt]
  cases hon : s.tr.onEvent <;> simp [fire_eq, SetState, hon]

/-! ## The remaining time decreases with the clock -/

theorem timeRemaining_of_noOverflow (t : TaskRunner) (now : Time) (hn : noOverflow t now) :
    TimeRemaining t now = Truncate (t.duration - (now - t.started)) Second :=
  timeRemaining_exact t now hn.1 hn.2.1 hn.2.2.1 hn.2.2.2

theorem truncate_mono (x y : Int) (hxy : x ≤ y) : Truncate x Second ≤ Truncate y Second := by
  have hx := truncate_second x
  have hy := truncate_second y
  unfold Duration at *
  rw [hx, hy]
  split <;> split <;> omega

theorem truncate_drop (x y : Int) (hxy : x + 2 * 1000000000 ≤ y) :
    Truncate x Second < Truncate y Second := by
  have hx := truncate_second x
  have hy := truncate_second y
  unfold Duration at *
  rw [hx, hy]
  split <;> split <;> omega

theorem timeRemaining_antitone (t : TaskRunner) (a b : Time) (ha : noOverflow t a)
    (hb : noOverflow t b) (hab : a ≤ b) : TimeRemaining t b ≤ TimeRemaining t a := by
  rw [timeRemaining_of_noOverflow t a ha, timeRemaining_of_noOverflow t b hb]
  apply truncate_mono
  unfold Time Duration at *
  omega

theorem timeRemaining_drops (t : TaskRunner) (a b : Time) (ha : noOverflow t a)
    (hb : noOverflow t b) (hab : a + 2 * Second ≤ b) : TimeRemaining t b < TimeRemaining t a := by
  rw [timeRemaining_of_noOverflow t a ha, timeRemaining_of_noOverflow t b hb]
  apply truncate_drop
  have hsec : Second = 1000000000 := rfl
  unfold Time Duration at *
  omega

/-! ## A `Pause()` blocked in its send -/

theorem step_pause_none (h : HookOracle) {s : Session} (now : Time)
    (hloc : s.loc = Loc.breaking ∨ (∃ e, s.loc = Loc.returned e) ∨ s.loc = Loc.panicked) :
    step h s (Event.pause now) = none := by
  rcases hloc with hl | ⟨e, hl⟩ | hl <;> simp [step, hl]

theorem sysStep_blocked (h : HookOracle) {sys : System}
    (hg : sys.guard = Guard.pauseSending)
    (hloc : sys.session.loc = Loc.breaking ∨ (∃ e, sys.session.loc = Loc.returned e) ∨
      sys.session.loc = Loc.panicked) (act : Action) : sysStep h sys act = none := by
  cases act with
  | loop ev =>
    cases ev <;> simp only [sysStep] <;>
      rcases hloc with hl | ⟨e, hl⟩ | hl <;> simp [step, hl]
  | callPause now => simp [sysStep, hg]
  | callToggle now => simp [sysStep, hg]
  | receive now => simp [sysStep, hg, step_pause_none h now hloc]

theorem sysExec_blocked (h : HookOracle) {sys sys1 : System}
    (hg : sys.guard = Guard.pauseSending)
    (hloc : sys.session.loc = Loc.breaking ∨ (∃ e, sys.session.loc = Loc.returned e) ∨
      sys.session.loc = Loc.panicked) (acts : List Action)
    (hrun : sysExec h sys acts = some sys1) : acts = [] ∧ sys1 = sys := by
  cases acts with
  | nil => simp only [sysExec, Option.some.injEq] at hrun; exact ⟨rfl, hrun.symm⟩
  | cons act acts => simp [sysExec, sysStep_blocked h hg hloc act] at hrun


/-! ## Pause and resume cycles -/

theorem timeRemaining_eq_remainingOf (t : TaskRunner) (now : Time) :
    TimeRemaining t now = remainingOf t.duration t.started now := rfl

theorem remainingOf_bounds (dur : Int) (started now : Int) (h0 : 0 ≤ now - started)
    (h1 : now - started ≤ dur) (h2 : dur ≤ 9223372036854775807) :
    remainingOf dur started now % 1000000000 = 0 ∧
      dur - (now - started) - 1000000000 < remainingOf dur started now ∧
      remainingOf dur started now ≤ dur - (now - started) ∧
      0 ≤ remainingOf dur started now := by
  have hs : Since now started = now - started := sub_exact now started (by omega) (by omega)
  have hw : wrap64 (dur - (now - started)) = dur - (now - started) :=
    wrap64_eq (by omega) (by omega)
  have ht := truncate_second (dur - (now - started))
  unfold remainingOf
  rw [hs, hw]
  unfold Duration at *
  rw [ht, if_pos (by omega)]
  omega

theorem cycle_exec (h : HookOracle) (s : Session) (p : Pomodoro) (a : Time) (d : Duration)
    (tp tr : Time) (app : String) (args : List String) (hloc : s.loc = Loc.selecting p a d)
    (hon : s.tr.onEvent = app :: args) :
    ∃ s2, exec h s [Event.pause tp, Event.pause tr] = some s2 ∧
      s2.loc = Loc.selecting p tr s2.tr.duration ∧
      s2.tr.duration = remainingOf s.tr.duration s.tr.started tp ∧ s2.tr.started = tr ∧
      s2.tr.onEvent = app :: args := by
  have e1 := onPause_eq h s p tp app args hon
  have hon1 : (onPause h s p tp).tr.onEvent = app :: args := by rw [e1]; exact hon
  have hl1 : (onPause h s p tp).loc = Loc.paused p (TimeRemaining s.tr tp) := by rw [e1]
  have e2 := onResume_eq h (onPause h s p tp) p (TimeRemaining s.tr tp) tr app args hon1
  refine ⟨onResume h (onPause h s p tp) p (TimeRemaining s.tr tp) tr, ?_, ?_, ?_, ?_, ?_⟩
  · simp [exec, step, hloc, hl1]
  · rw [e2]; rfl
  · rw [e2]; rfl
  · rw [e2]; rfl
  · rw [e2]; exact hon1

theorem cycles_exec (h : HookOracle) (p : Pomodoro) (app : String) (args : List String)
    (cs : List (Time × Time)) :
    ∀ (s : Session) (a : Time), s.loc = Loc.selecting p a s.tr.duration →
      s.tr.onEvent = app :: args → s.tr.duration ≤ maxDuration →
      pausedInTime s.tr.duration s.tr.started cs →
      ∃ s1 a1, exec h s (pauseCycles cs) = some s1 ∧
        s1.loc = Loc.selecting p a1 s1.tr.duration ∧
        ranFor s.tr.started cs + s1.tr.duration ≤ s.tr.duration ∧
        s.tr.duration - cs.length * Second ≤ ranFor s.tr.started cs + s1.tr.duration ∧
        (cs ≠ [] →
          s.tr.duration - cs.length * Second < ranFor s.tr.started cs + s1.tr.duration) := by
  induction cs with
  | nil =>
    intro s a hloc _ _ _
    exact ⟨s, a, rfl, hloc, by simp [ranFor], by simp [ranFor], fun hne => absurd rfl hne⟩
  | cons c cs ih =>
    obtain ⟨tp, tr⟩ := c
    intro s a hloc hon hmax hin
    obtain ⟨h0, h1, hrest⟩ := hin
    obtain ⟨s2, hrun2, hl2, hd2, hs2, hon2⟩ := cycle_exec h s p a _ tp tr app args hloc hon
    have hb := remainingOf_bounds s.tr.duration s.tr.started tp h0 h1 hmax
    have hmax2 : s2.tr.duration ≤ maxDuration := by
      rw [hd2]
      have hm : maxDuration = 9223372036854775807 := rfl
      unfold Time Duration at *
      omega
    rw [← hd2, ← hs2] at hrest
    obtain ⟨s1, a1, hrun1, hl1, hle, hge, _⟩ := ih s2 tr hl2 hon2 hmax2 hrest
    refine ⟨s1, a1, ?_, hl1, ?_, ?_, ?_⟩
    · have happ := exec_append h s [Event.pause tp, Event.pause tr] (pauseCycles cs)
      simp only [List.cons_append, List.nil_append] at happ
      simp only [pauseCycles]
      rw [happ, hrun2]
      exact hrun1
    all_goals
      simp only [ranFor, List.length_cons, Nat.cast_add, Nat.cast_one]
      have hsec : Second = 1000000000 := rfl
      rw [hs2] at hle hge
      rw [hd2] at hle hge
      unfold Time Duration at *
      try intro _
      nlinarith [hb.2.1, hb.2.2.1, hle, hge]

/-! ## Timer expirations and appends -/

theorem step_appends_expiries {h : HookOracle} {s s1 : Session} {ev : Event}
    (hstep : step h s ev = some s1) :
    s1.appends.length = s.appends.length + expiries [ev] ∧ s.tr.count ≤ s1.tr.count := by
  cases ev <;> cases hloc : s.loc <;>
    simp only [step, hloc, reduceCtorEq, Option.some.injEq] at hstep <;>
    simp only [expiries]
  case timerC.selecting p a d =>
    split at hstep
    · simp only [Option.some.injEq] at hstep
      subst hstep
      simp [onTimer]
    · simp at hstep
  case start.created =>
    subst hstep
    rw [loopHead_appends, loopHead_tr]
    refine ⟨rfl, ?_⟩
    split <;> [split; skip] <;> simp [SetState]
  case toggle.breaking =>
    subst hstep
    rw [loopHead_appends, loopHead_tr]
    refine ⟨rfl, ?_⟩
    split <;> [split; skip] <;> simp [SetState]
  case toggle.selecting => subst hstep; simp
  case stored.storing p =>
    subst hstep
    rw [afterStore_appends, afterStore_tr]
    refine ⟨rfl, ?_⟩
    split <;> [skip; (split <;> [skip; split])] <;> simp [SetState]
  case pause.selecting => subst hstep; rw [onPause_appends, onPause_tr]; simp [SetState]
  case pause.paused => subst hstep; rw [onResume_appends, onResume_tr]; simp [SetState]

theorem expiries_cons (ev : Event) (evs : List Event) :
    expiries (ev :: evs) = expiries [ev] + expiries evs := by
  cases ev <;> simp [expiries, Nat.add_comm]

theorem exec_appends_expiries {h : HookOracle} (evs : List Event) {s s1 : Session}
    (hrun : exec h s evs = some s1) :
    s1.appends.length = s.appends.length + expiries evs ∧ s.tr.count ≤ s1.tr.count := by
  induction evs generalizing s with
  | nil => simp only [exec, Option.some.injEq] at hrun; subst hrun; simp [expiries]
  | cons ev evs ih =>
    simp only [exec] at hrun
    cases hstep : step h s ev with
    | none => simp [hstep] at hrun
    | some s2 =>
      rw [hstep] at hrun
      have h1 := step_appends_expiries hstep
      have h2 := ih hrun
      rw [expiries_cons]
      exact ⟨by omega, le_trans h1.2 h2.2⟩

/-! ## A runner that is at its target when started -/

theorem step_panicked (h : HookOracle) {s : Session} (hloc : s.loc = Loc.panicked)
    (ev : Event) : step h s ev = none := by
  cases ev <;> simp [step, hloc]

theorem exec_ended (h : HookOracle) {s s1 : Session}
    (hloc : (∃ e, s.loc = Loc.returned e) ∨ s.loc = Loc.panicked) (evs : List Event)
    (hrun : exec h s evs = some s1) : evs = [] ∧ s1 = s := by
  cases evs with
  | nil => simp only [exec, Option.some.injEq] at hrun; exact ⟨rfl, hrun.symm⟩
  | cons ev evs =>
    rcases hloc with ⟨e, hl⟩ | hl
    · simp [exec, step_returned h hl ev] at hrun
    · simp [exec, step_panicked h hl ev] at hrun

theorem finish_facts (h : HookOracle) (s : Session) :
    (finish h s).tr.state = State.COMPLETE ∧ (finish h s).appends = s.appends ∧
      (finish h s).notified = s.notified ++ [completeNote] ∧
      ((finish h s).loc = Loc.returned none ∨ (finish h s).loc = Loc.panicked) ∧
      ((finish h s).states = s.states ∨ (finish h s).states = s.states ++ [State.COMPLETE]) := by
  refine ⟨by rw [finish_tr]; rfl, finish_appends h s, ?_, finish_loc h s, ?_⟩
  · unfold finish
    cases hon : s.tr.onEvent <;> simp [fire_eq, SetState, hon, completeNote]
  · unfold finish
    cases hon : s.tr.onEvent <;> simp [fire_eq, SetState, hon, Session.states]

theorem exec_done_at_start (h : HookOracle) (t : TaskRunner)
    (hge : t.nPomodoros ≤ t.count) (evs : List Event) (s : Session)
    (hrun : exec h (Session.init t) evs = some s) :
    (evs = [] ∧ s = Session.init t) ∨
      ∃ now, evs = [Event.start now] ∧ s = finish h (Session.init t) := by
  cases evs with
  | nil => simp only [exec, Option.some.injEq] at hrun; exact Or.inl ⟨rfl, hrun.symm⟩
  | cons ev evs =>
    right
    simp only [exec] at hrun
    cases ev <;> simp only [step, Session.init, reduceCtorEq] at hrun
    case start now =>
      have hlh : loopHead h { tr := t } now = finish h { tr := t } := by
        unfold loopHead
        rw [if_neg (by simpa using hge)]
      rw [hlh] at hrun
      have hend := exec_ended h
        ((finish_loc h { tr := t }).elim (fun hl => Or.inl ⟨none, hl⟩) Or.inr) evs hrun
      exact ⟨now, by rw [hend.1], hend.2⟩

/-! ## Splitting the filter arguments -/

theorem splitChars_length (sep : Char) (cs : List Char) :
    ∀ cur, (splitChars sep cur cs).length = cs.count sep + 1 := by
  induction cs with
  | nil => intro cur; rfl
  | cons c cs ih =>
    intro cur
    unfold splitChars
    by_cases hc : c = sep
    · rw [if_pos hc, List.length_cons, ih, hc, List.count_cons_self]
    · rw [if_neg hc, ih, List.count_cons_of_ne (Ne.symm hc)]

theorem splitChars_plain (sep : Char) (cs : List Char) (hno : sep ∉ cs) :
    ∀ cur, splitChars sep cur cs = [cur.reverse ++ cs] := by
  induction cs with
  | nil => intro cur; simp [splitChars]
  | cons c cs ih =>
    intro cur
    have hc : c ≠ sep := fun he => hno (by rw [he]; exact List.mem_cons_self _ _)
    have hno2 : sep ∉ cs := fun hm => hno (List.mem_cons_of_mem _ hm)
    unfold splitChars
    rw [if_neg hc, ih hno2]
    simp

theorem splitChars_field (sep : Char) (k v : List Char) (hno : sep ∉ k) :
    ∀ cur, splitChars sep cur (k ++ sep :: v) = (cur.reverse ++ k) :: splitChars sep [] v := by
  induction k with
  | nil => intro cur; simp [splitChars]
  | cons c k ih =>
    intro cur
    have hc : c ≠ sep := fun he => hno (by rw [he]; exact List.mem_cons_self _ _)
    have hno2 : sep ∉ k := fun hm => hno (List.mem_cons_of_mem _ hm)
    have hstep : splitChars sep cur (c :: (k ++ sep :: v))
        = splitChars sep (c :: cur) (k ++ sep :: v) := by
      simp only [splitChars, if_neg hc]
    rw [List.cons_append, hstep, ih hno2]
    simp

theorem split_length (arg : String) : (Split arg '=').length = equalSigns arg + 1 := by
  simp [Split, equalSigns, splitChars_length]

theorem split_plain (s : String) (hno : '=' ∉ s.data) : Split s '=' = [s] := by
  simp [Split, splitChars_plain '=' s.data hno]

theorem split_pair (k v : String) (hk : '=' ∉ k.data) (hv : '=' ∉ v.data) :
    Split (k ++ "=" ++ v) '=' = [k, v] := by
  have hd : (k ++ "=" ++ v).data = k.data ++ '=' :: v.data := by
    simp [String.data_append]
  simp [Split, hd, splitChars_field '=' k.data v.data hk, splitChars_plain '=' v.data hv]

theorem addFilters_append (filters : List TaskFilter) (arg : String) :
    addFilters filters arg = filters ++ addFilters [] arg := by
  unfold addFilters
  split <;> simp

theorem filters_foldl (args : List String) :
    ∀ filters, args.foldl addFilters filters = filters ++ TaskFiltersFromStrings args := by
  unfold TaskFiltersFromStrings
  induction args with
  | nil => intro filters; simp
  | cons arg args ih =>
    intro filters
    simp only [List.foldl_cons]
    rw [ih (addFilters filters arg), ih (addFilters [] arg), addFilters_append filters arg,
      List.append_assoc]

theorem filters_cons (arg : String) (args : List String) :
    TaskFiltersFromStrings (arg :: args) = addFilters [] arg ++ TaskFiltersFromStrings args := by
  have h := filters_foldl args (addFilters [] arg)
  simpa [TaskFiltersFromStrings] using h

theorem filters_append (args1 args2 : List String) :
    TaskFiltersFromStrings (args1 ++ args2)
      = TaskFiltersFromStrings args1 ++ TaskFiltersFromStrings args2 := by
  induction args1 with
  | nil => simp [TaskFiltersFromStrings]
  | cons arg args ih => rw [List.cons_append, filters_cons, filters_cons, ih, List.append_assoc]

theorem addFilters_length (arg : String) :
    (addFilters [] arg).length
      = if equalSigns arg = 0 then 2 else if equalSigns arg = 1 then 1 else 0 := by
  have hl := split_length arg
  unfold addFilters
  rcases hs : Split arg '=' with _ | ⟨a, _ | ⟨b, _ | ⟨c, r⟩⟩⟩ <;> rw [hs] at hl <;>
    simp only [List.length_cons, List.length_nil] at hl
  · omega
  · have h0 : equalSigns arg = 0 := by omega
    simp [h0]
  · have h1 : equalSigns arg = 1 := by omega
    simp [h1]
  · have h0 : equalSigns arg ≠ 0 := by omega
    have h1 : equalSigns arg ≠ 1 := by omega
    simp [h0, h1]

theorem filters_length (args : List String) :
    (TaskFiltersFromStrings args).length
      = 2 * (args.filter (fun arg => equalSigns arg = 0)).length
        + (args.filter (fun arg => equalSigns arg = 1)).length := by
  induction args with
  | nil => rfl
  | cons arg args ih =>
    rw [filters_cons, List.length_append, ih, addFilters_length]
    by_cases h0 : equalSigns arg = 0
    · simp [List.filter_cons, h0]; omega
    · by_cases h1 : equalSigns arg = 1
      · simp [List.filter_cons, h1]; omega
      · simp [List.filter_cons, h0, h1]

/-! ## The state of a loop that died -/

theorem panicked_state_step {h : HookOracle} {s s1 : Session} {ev : Event}
    (hk : hookOk s s.loc) (hstep : step h s ev = some s1) (hp : s1.loc = Loc.panicked) :
    s1.tr.state = State.RUNNING ∨ s1.tr.state = State.COMPLETE := by
  cases ev <;> cases hloc : s.loc <;>
    simp only [step, hloc, reduceCtorEq, Option.some.injEq] at hstep <;>
    rw [hloc] at hk <;> simp only [hookOk] at hk
  case timerC.selecting p a d =>
    split at hstep
    · simp only [Option.some.injEq] at hstep
      subst hstep
      simp [onTimer] at hp
    · simp at hstep
  case start.created =>
    subst hstep
    rw [loopHead_tr]
    split <;> [split; skip] <;> simp [SetState]
  case toggle.breaking =>
    subst hstep
    rw [loopHead_tr]
    split <;> simp [SetState]
  case toggle.selecting => subst hstep; rw [hloc] at hp; simp at hp
  case stored.storing now err p =>
    subst hstep
    cases hon : s.tr.onEvent with
    | nil => exact absurd hon hk
    | cons app args =>
      unfold afterStore at hp ⊢
      cases err with
      | some e => simp at hp
      | none =>
        simp only [] at hp ⊢
        split at hp
        · rename_i heq
          rw [if_pos heq, finish_tr]
          simp [SetState]
        · simp [fire_eq, SetState, hon] at hp
  case pause.selecting =>
    subst hstep
    cases hon : s.tr.onEvent with
    | nil => exact absurd hon hk
    | cons app args => rw [onPause_eq h s _ _ app args hon] at hp; simp at hp
  case pause.paused =>
    subst hstep
    cases hon : s.tr.onEvent with
    | nil => exact absurd hon hk
    | cons app args => rw [onResume_eq h s _ _ _ app args hon] at hp; simp at hp

theorem panicked_state_exec {h : HookOracle} (evs : List Event) {s s1 : Session}
    (hk : hookOk s s.loc)
    (hs : s.loc = Loc.panicked → s.tr.state = State.RUNNING ∨ s.tr.state = State.COMPLETE)
    (hrun : exec h s evs = some s1) (hp : s1.loc = Loc.panicked) :
    s1.tr.state = State.RUNNING ∨ s1.tr.state = State.COMPLETE := by
  induction evs generalizing s with
  | nil => simp only [exec, Option.some.injEq] at hrun; subst hrun; exact hs hp
  | cons ev evs ih =>
    simp only [exec] at hrun
    cases hstep : step h s ev with
    | none => simp [hstep] at hrun
    | some s2 =>
      rw [hstep] at hrun
      exact ih (hookOk_step hk hstep) (fun hp2 => panicked_state_step hk hstep hp2) hrun

/-! ## The claims -/

/-- C1 (as stated, refuted): the runner that `NewTaskRunner` builds for a task with target
count 2 that already has one completed interval reaches COMPLETE, with a store that
never fails and a clock that never goes back, after one append call, not two. -/
theorem run_appends_counterexample :
    (NewTaskRunner resumedTask hookConfig none).toOption.bind
        (fun t => (exec hookSucceeds (Session.init t) resumedEvents).map
          (fun s => (s.tr.state, s.appends.length)))
      = some (State.COMPLETE, 1) ∧
    storeOk resumedEvents = true ∧ nonDecreasing 0 resumedEvents = true ∧
    resumedTask.NPomodoros = 2 := by
  decide

/-- C1 (amended): for every runner not yet started, with completed count `k` and target
`N`, every execution of the loop under a clock that never goes back that reaches
COMPLETE has issued exactly `N - k` append calls (none when `N ≤ k`), so exactly `N`
when the runner starts from count 0, and every appended interval has end ≥ start,
whatever pause, resume and toggle events occurred. -/
theorem run_appends (t : TaskRunner) (h : HookOracle) (t0 : Time) (evs : List Event)
    (s : Session) (hnew : t.state = State.CREATED)
    (hclock : nonDecreasing t0 evs = true)
    (hrun : exec h (Session.init t) evs = some s)
    (hdone : s.tr.state = State.COMPLETE) :
    s.appends.length = (t.nPomodoros - t.count).toNat ∧
      ∀ p ∈ s.appends, p.2.Start ≤ p.2.End :=
  ⟨(counted_exec evs (counted_init t hnew) hrun).complete hdone,
    timed_exec evs (timed_init t t0) hclock hrun⟩

/-- C1, witness: two intervals from count 0, the first one paused and resumed. -/
theorem run_appends_witness :
    freshRunner.state = State.CREATED ∧ nonDecreasing 0 freshEvents = true ∧
      exec hookSucceeds (Session.init freshRunner) freshEvents = some freshFinal ∧
      freshFinal.tr.state = State.COMPLETE ∧
      (freshFinal.appends.length = (freshRunner.nPomodoros - freshRunner.count).toNat ∧
        ∀ p ∈ freshFinal.appends, p.2.Start ≤ p.2.End) :=
  ⟨by decide, by decide, by decide, by decide,
    run_appends freshRunner hookSucceeds 0 freshEvents freshFinal (by decide) (by decide)
      (by decide) (by decide)⟩

/-- C2: when the store returns an error `e` for the append of a completed interval, `run`
returns exactly `e` at once: the runner is left as it was (its state is still RUNNING,
never BREAKING nor COMPLETE), no append call, notification or hook execution is added,
and the loop receives no further event, so none of this changes afterwards. -/
theorem store_failure_ends_run (t : TaskRunner) (h : HookOracle) (evs : List Event)
    (s : Session) (p : Pomodoro) (now : Time) (e : Error)
    (hnew : t.state = State.CREATED) (hrun : exec h (Session.init t) evs = some s)
    (hloc : s.loc = Loc.storing p) :
    ∃ s1, step h s (Event.stored now (some e)) = some s1 ∧
      s1.loc = Loc.returned (some e) ∧ s1.tr = s.tr ∧ s1.tr.state = State.RUNNING ∧
      s1.appends = s.appends ∧ s1.results = s.results ++ [some e] ∧
      s1.notified = s.notified ∧ s1.hooked = s.hooked ∧
      (∀ ev, step h s1 ev = none) ∧
      ∀ evs1 s2, exec h s1 evs1 = some s2 → evs1 = [] ∧ s2 = s1 := by
  have hc := (counted_exec evs (counted_init t hnew) hrun).loc
  rw [hloc] at hc
  refine ⟨{ s with results := s.results ++ [some e], loc := Loc.returned (some e) }, ?_, rfl,
    rfl, hc.1, rfl, rfl, rfl, rfl, ?_, ?_⟩
  · simp [step, hloc, afterStore]
  · exact fun ev => step_returned h rfl ev
  · exact fun evs1 s2 h2 => exec_returned h rfl evs1 h2

/-- C2, witness: the store fails on the first interval of `freshRunner`. -/
theorem store_failure_ends_run_witness :
    freshRunner.state = State.CREATED ∧
      exec hookSucceeds (Session.init freshRunner) [Event.start 0, Event.timerC (10 * Second)]
        = some storingSession ∧
      ∃ s1, step hookSucceeds storingSession (Event.stored (11 * Second) (some "disk full"))
          = some s1 ∧
        s1.loc = Loc.returned (some "disk full") ∧ s1.tr = storingSession.tr ∧
        s1.tr.state = State.RUNNING ∧
        s1.appends = storingSession.appends ∧
        s1.results = storingSession.results ++ [some "disk full"] ∧
        s1.notified = storingSession.notified ∧ s1.hooked = storingSession.hooked ∧
        (∀ ev, step hookSucceeds s1 ev = none) ∧
        ∀ evs1 s2, exec hookSucceeds s1 evs1 = some s2 → evs1 = [] ∧ s2 = s1 :=
  ⟨by decide, by decide,
    store_failure_ends_run freshRunner hookSucceeds [Event.start 0, Event.timerC (10 * Second)]
      storingSession _ (11 * Second) "disk full" (by decide) (by decide) rfl⟩

/-- C3 (as stated, refuted): the timer of the only interval of `singleRunner` has fired and
the store transaction has not returned yet: `Status()` reports `Count = 1 = NPomodoros`
while no append has succeeded; the same holds after the store has returned an error. -/
theorem status_count_counterexample :
    singleRunner.count = 0 ∧
    (exec hookSucceeds (Session.init singleRunner)
        [Event.start 0, Event.timerC (1500 * Second)]).map
      (fun s => ((s.tr.Status (1500 * Second)).Count, (s.tr.Status (1500 * Second)).NPomodoros,
        s.succeeded)) = some (1, 1, 0) ∧
    (exec hookSucceeds (Session.init singleRunner)
        [Event.start 0, Event.timerC (1500 * Second),
          Event.stored (1501 * Second) (some "disk full")]).map
      (fun s => ((s.tr.Status (1600 * Second)).Count, (s.tr.Status (1600 * Second)).NPomodoros,
        s.succeeded)) = some (1, 1, 0) := by
  decide

/-- C3 (amended): at every point of every execution of a runner that started with
completed count 0, the count `Status()` reports is at most one more than the number of
intervals whose append has succeeded, and it equals that number whenever the state
reported is not RUNNING (so in BREAKING and in COMPLETE every counted interval is
recorded). -/
theorem status_count_bound (t : TaskRunner) (h : HookOracle) (evs : List Event) (s : Session)
    (now : Time) (hnew : t.state = State.CREATED) (hzero : t.count = 0)
    (hrun : exec h (Session.init t) evs = some s) :
    (s.tr.Status now).Count ≤ s.succeeded + 1 ∧
      ((s.tr.Status now).State ≠ State.RUNNING → (s.tr.Status now).Count = s.succeeded) := by
  have hc := counted_exec evs (counted_init t hnew) hrun
  have hp := pending_exec evs (pending_init t) hrun
  have hcount := hc.count
  have hl := hc.loc
  rw [hzero] at hcount
  simp only [TaskRunner.Status]
  cases hloc : s.loc with
  | returned err =>
    rw [hloc] at hp hl
    cases err <;> simp only [pendingOk, locOk] at hp hl
    · exact ⟨by omega, fun _ => by omega⟩
    · exact ⟨by omega, fun hne => absurd hl hne⟩
  | storing p =>
    rw [hloc] at hp hl
    simp only [pendingOk, locOk] at hp hl
    exact ⟨by omega, fun hne => absurd hl.1 hne⟩
  | _ =>
    rw [hloc] at hp
    simp only [pendingOk] at hp
    exact ⟨by omega, fun _ => by omega⟩

/-- C3, witness: the whole session `freshEvents` of `freshRunner`. -/
theorem status_count_bound_witness :
    freshRunner.state = State.CREATED ∧ freshRunner.count = 0 ∧
      exec hookSucceeds (Session.init freshRunner) freshEvents = some freshFinal ∧
      ((freshFinal.tr.Status (80 * Second)).Count ≤ freshFinal.succeeded + 1 ∧
        ((freshFinal.tr.Status (80 * Second)).State ≠ State.RUNNING →
          (freshFinal.tr.Status (80 * Second)).Count = freshFinal.succeeded)) :=
  ⟨by decide, by decide, by decide,
    status_count_bound freshRunner hookSucceeds freshEvents freshFinal (80 * Second)
      (by decide) (by decide) (by decide)⟩

/-- C4: a runner that is RUNNING (its loop in the `select`) is paused at `tp`, which
captures the remaining time `R = TimeRemaining` at `tp`, and resumed at any instant `tr`.
On resume the timer is re-armed at `tr` with exactly `R`, the working duration is `R`,
the started reference is `tr`, `TimeRemaining` read at `tr` is `R`, and the timer so
armed (toggles drained meanwhile or not) fires no earlier than `tr + R`. -/
theorem pause_resume_accounting (h : HookOracle) (s : Session) (p : Pomodoro) (a : Time)
    (d : Duration) (tp tr : Time) (hstate : s.tr.state = State.RUNNING)
    (hloc : s.loc = Loc.selecting p a d) (hhook : s.tr.onEvent ≠ []) :
    ∃ s1 s2, Pause h s tp = some s1 ∧ s1.tr.state = State.PAUSED ∧
      s1.loc = Loc.paused p (TimeRemaining s.tr tp) ∧
      Pause h s1 tr = some s2 ∧ s2.tr.state = State.RUNNING ∧
      s2.loc = Loc.selecting p tr (TimeRemaining s.tr tp) ∧
      s2.tr.duration = TimeRemaining s.tr tp ∧ s2.tr.started = tr ∧
      TimeRemaining s2.tr tr = TimeRemaining s.tr tp ∧
      ∀ (ts : List Time) (tf : Time) (s3 : Session),
        exec h s2 (ts.map Event.toggle ++ [Event.timerC tf]) = some s3 →
          tr + TimeRemaining s.tr tp ≤ tf := by
  cases hon : s.tr.onEvent with
  | nil => exact absurd hon hhook
  | cons app args =>
    have h1 : Pause h s tp = some (onPause h s p tp) := by
      simp [Pause, hstate, step, hloc]
    have e1 := onPause_eq h s p tp app args hon
    have hon1 : (onPause h s p tp).tr.onEvent = app :: args := by rw [e1]; exact hon
    have hl1 : (onPause h s p tp).loc = Loc.paused p (TimeRemaining s.tr tp) := by rw [e1]
    have hs1 : (onPause h s p tp).tr.state = State.PAUSED := by rw [e1]; rfl
    have h2 : Pause h (onPause h s p tp) tr
        = some (onResume h (onPause h s p tp) p (TimeRemaining s.tr tp) tr) := by
      simp [Pause, hs1, step, hl1]
    have e2 := onResume_eq h (onPause h s p tp) p (TimeRemaining s.tr tp) tr app args hon1
    have hl2 : (onResume h (onPause h s p tp) p (TimeRemaining s.tr tp) tr).loc
        = Loc.selecting p tr (TimeRemaining s.tr tp) := by rw [e2]
    refine ⟨_, _, h1, hs1, hl1, h2, ?_, hl2, ?_, ?_, ?_, ?_⟩
    · rw [e2]; rfl
    · rw [e2]; rfl
    · rw [e2]; rfl
    · exact timeRemaining_resumed s.tr _ tp tr (by rw [e2]; rfl) (by rw [e2]; rfl)
    · intro ts tf s3 hrun
      rw [exec_append, exec_toggles h hl2 ts] at hrun
      simp only [Option.some_bind, exec, step, hl2] at hrun
      by_contra hlt
      rw [if_neg hlt] at hrun
      simp at hrun

/-- C4, witness: `freshRunner` paused 3 s into its first interval of 10 s and resumed 40 s
later: 7 s remain. -/
theorem pause_resume_accounting_witness :
    runningSession.tr.state = State.RUNNING ∧
      runningSession.loc = Loc.selecting { Start := 0, End := 0 } 0 (10 * Second) ∧
      runningSession.tr.onEvent ≠ [] ∧
      TimeRemaining runningSession.tr (3 * Second) = 7 * Second ∧
      ∃ s1 s2, Pause hookSucceeds runningSession (3 * Second) = some s1 ∧
        s1.tr.state = State.PAUSED ∧
        s1.loc = Loc.paused { Start := 0, End := 0 } (TimeRemaining runningSession.tr (3 * Second)) ∧
        Pause hookSucceeds s1 (43 * Second) = some s2 ∧ s2.tr.state = State.RUNNING ∧
        s2.loc = Loc.selecting { Start := 0, End := 0 } (43 * Second)
          (TimeRemaining runningSession.tr (3 * Second)) ∧
        s2.tr.duration = TimeRemaining runningSession.tr (3 * Second) ∧
        s2.tr.started = 43 * Second ∧
        TimeRemaining s2.tr (43 * Second) = TimeRemaining runningSession.tr (3 * Second) ∧
        ∀ (ts : List Time) (tf : Time) (s3 : Session),
          exec hookSucceeds s2 (ts.map Event.toggle ++ [Event.timerC tf]) = some s3 →
            43 * Second + TimeRemaining runningSession.tr (3 * Second) ≤ tf :=
  ⟨by decide, by decide, by decide, by decide,
    pause_resume_accounting hookSucceeds runningSession _ 0 (10 * Second) (3 * Second)
      (43 * Second) (by decide) (by decide) (by decide)⟩

/-- C5 (as stated, refuted): `freshRunner` is PAUSED since 23 s, its last timer expiry was
at 10 s. Read at 30 s, `Status().Pauseduration` is 20 s, the time since that expiry,
not the 7 s elapsed since the pause began. -/
theorem pause_duration_counterexample :
    (exec hookSucceeds (Session.init freshRunner) pausedEvents).map
        (fun s => (s.tr.state, (s.tr.Status (30 * Second)).Pauseduration))
      = some (State.PAUSED, 20 * Second) ∧
    Truncate (Sub (30 * Second) (23 * Second)) Second = 7 * Second := by
  decide

/-- C5 (amended): for every runner, in state PAUSED as in any other, the `Pauseduration`
of `Status()` read at `now` is the time elapsed between the most recent timer expiry
(the reference `stopped` the runner started with, the zero time, when no timer has
fired yet) and `now`, truncated to whole seconds: taking a pause does not move the
reference. -/
theorem pause_duration_since_expiry (t : TaskRunner) (h : HookOracle) (evs : List Event)
    (s : Session) (now : Time) (hrun : exec h (Session.init t) evs = some s) :
    (s.tr.Status now).Pauseduration
      = Truncate (Sub now (lastExpiry t.stopped evs)) Second := by
  have hst := exec_stopped evs hrun
  simp only [TaskRunner.Status, TimePauseDuration, Since, hst, Session.init]

/-- C5, witness: the paused session of `pausedEvents`, read at 30 s. -/
theorem pause_duration_since_expiry_witness :
    exec hookSucceeds (Session.init freshRunner) pausedEvents = some pausedSession ∧
      pausedSession.tr.state = State.PAUSED ∧
      lastExpiry freshRunner.stopped pausedEvents = 10 * Second ∧
      (pausedSession.tr.Status (30 * Second)).Pauseduration
        = Truncate (Sub (30 * Second) (lastExpiry freshRunner.stopped pausedEvents)) Second :=
  ⟨by decide, by decide, by decide,
    pause_duration_since_expiry freshRunner hookSucceeds pausedEvents pausedSession
      (30 * Second) (by decide)⟩

/-- C6 (as stated, refuted): `singleRunner` reaches COMPLETE at 1500 s; read 2 s later,
`TimeRemaining()` is -2 s. -/
theorem time_remaining_counterexample :
    exec hookSucceeds (Session.init singleRunner) singleEvents = some singleFinal ∧
      singleFinal.tr.state = State.COMPLETE ∧ lastTime 0 singleEvents = 1500 * Second ∧
      TimeRemaining singleFinal.tr (1502 * Second) = -2 * Second := by
  decide

/-- C6 (amended): as long as the `int64` arithmetic does not overflow, `TimeRemaining()`
read at `now` is `duration - (now - started)` truncated toward zero to whole seconds.
For a runner that reached COMPLETE by timing at least one interval and every `now` at
or after the completion instant, the value is not clamped: it is never positive, and
it is negative once a whole second has passed since `started + duration`. -/
theorem time_remaining_after_complete (t : TaskRunner) (h : HookOracle) (t0 : Time)
    (evs : List Event) (s : Session) (now : Time)
    (hnew : t.state = State.CREATED) (hlt : t.count < t.nPomodoros)
    (hclock : nonDecreasing t0 evs = true) (hrun : exec h (Session.init t) evs = some s)
    (hdone : s.tr.state = State.COMPLETE) (hnow : lastTime t0 evs ≤ now)
    (h1 : minDuration ≤ now - s.tr.started) (h2 : now - s.tr.started ≤ maxDuration)
    (h3 : minDuration ≤ s.tr.duration - (now - s.tr.started)) :
    (∀ (r : TaskRunner) (u : Time), minDuration ≤ u - r.started → u - r.started ≤ maxDuration →
        minDuration ≤ r.duration - (u - r.started) → r.duration - (u - r.started) ≤ maxDuration →
        TimeRemaining r u = Truncate (r.duration - (u - r.started)) Second) ∧
      TimeRemaining s.tr now ≤ 0 ∧
      (s.tr.started + s.tr.duration + Second ≤ now → TimeRemaining s.tr now < 0) := by
  refine ⟨timeRemaining_exact, ?_⟩
  have hc := counted_exec evs (counted_init t hnew) hrun
  have hd := due_exec evs (counted_init t hnew) (by simp [Session.init, dueOk]) hclock hrun
  have hlen := hc.complete hdone
  have hne : s.appends ≠ [] := by
    intro he
    rw [he] at hlen
    simp only [List.length_nil] at hlen
    omega
  have hl := hc.loc
  have hdue : s.tr.started + s.tr.duration ≤ lastTime t0 evs := by
    cases hloc : s.loc <;> rw [hloc] at hl hd <;> simp only [locOk, dueOk] at hl hd
    case returned err =>
      cases err with
      | none => exact hd hne
      | some e => simp only [locOk] at hl; rw [hdone] at hl; exact absurd hl (by decide)
    case panicked => exact hd hdone hne
    all_goals (rw [hdone] at hl; exact absurd hl.1 (by decide))
  have hle : s.tr.started + s.tr.duration ≤ now := le_trans hdue hnow
  have hmax : maxDuration = 9223372036854775807 := rfl
  have hmin : minDuration = -9223372036854775808 := rfl
  have hsec : Second = 1000000000 := rfl
  have hex := timeRemaining_exact s.tr now h1 h2 h3 (by unfold Time Duration at *; omega)
  have htr := truncate_second (s.tr.duration - (now - s.tr.started))
  rw [hex]
  unfold Time Duration at *
  constructor
  · split at htr <;> omega
  · intro h5
    split at htr <;> omega

/-- C6, witness: the completed session of `singleRunner`, read one minute after the end. -/
theorem time_remaining_after_complete_witness :
    singleRunner.state = State.CREATED ∧ singleRunner.count < singleRunner.nPomodoros ∧
      nonDecreasing 0 singleEvents = true ∧
      exec hookSucceeds (Session.init singleRunner) singleEvents = some singleFinal ∧
      singleFinal.tr.state = State.COMPLETE ∧ lastTime 0 singleEvents ≤ 1560 * Second ∧
      ((∀ (r : TaskRunner) (u : Time), minDuration ≤ u - r.started →
          u - r.started ≤ maxDuration → minDuration ≤ r.duration - (u - r.started) →
          r.duration - (u - r.started) ≤ maxDuration →
          TimeRemaining r u = Truncate (r.duration - (u - r.started)) Second) ∧
        TimeRemaining singleFinal.tr (1560 * Second) ≤ 0 ∧
        (singleFinal.tr.started + singleFinal.tr.duration + Second ≤ 1560 * Second →
          TimeRemaining singleFinal.tr (1560 * Second) < 0)) :=
  ⟨by decide, by decide, by decide, by decide, by decide, by decide,
    time_remaining_after_complete singleRunner hookSucceeds 0 singleEvents singleFinal
      (1560 * Second) (by decide) (by decide) (by decide) (by decide) (by decide) (by decide)
      (by decide) (by decide) (by decide)⟩

/-- C8 (the code at the failing input): for every task, `OnEvent()` on the runner built by
`NewMockedTaskRunner`, or by `NewTaskRunner` from a configuration without `OnEvent`,
does not return: `t.onEvent[0]` is out of range. The loop of such a runner dies at
its first hook execution, whatever the task. -/
theorem on_event_without_hook_panics (task : Task) (cmdRun : HookCall → Option Error)
    (h : HookOracle) (now : Time) :
    OnEvent (NewMockedTaskRunner task) cmdRun = none ∧
      (NewTaskRunner task { OnEvent := [] } none).map (fun t => OnEvent t cmdRun)
        = Except.ok none ∧
      (step h (Session.init (NewMockedTaskRunner task)) (Event.start now)).map
        (fun s => s.loc) = some Loc.panicked := by
  refine ⟨rfl, rfl, ?_⟩
  simp only [step, Session.init, Option.map_some', Option.some.injEq]
  unfold loopHead finish
  split <;> simp [fire_eq, SetState, NewMockedTaskRunner]

/-- C9: the results of the hook executions are discarded. For every runner, every session
of it and every sequence of events, two hook oracles (one that always succeeds and
one that always fails, say) lead to the same session: same states, append calls,
notifications and result of `run`. An error `run` returns after the events is the
error of a store transaction among them. -/
theorem hook_errors_ignored (h1 h2 : HookOracle) (s : Session) (evs : List Event) :
    exec h1 s evs = exec h2 s evs ∧
      ∀ s1 e, exec h1 s evs = some s1 → s1.loc = Loc.returned (some e) →
        s.loc = Loc.returned (some e) ∨ ∃ now, Event.stored now (some e) ∈ evs :=
  ⟨exec_hook h1 h2 s evs, fun _ _ hrun hret => exec_error_source evs hrun hret⟩

/-- C9, instance: the whole session `freshEvents` with a hook that always fails. -/
theorem hook_errors_ignored_witness :
    exec hookFails (Session.init freshRunner) freshEvents = some freshFinal ∧
      freshFinal.loc = Loc.returned none :=
  ⟨((hook_errors_ignored hookFails hookSucceeds (Session.init freshRunner) freshEvents).1).trans
    (by decide), by decide⟩

/-- C10: an interval of a runner with original duration `D` completes with count below the
target and its append succeeds: the runner enters BREAKING and its working duration
is `D` again, whatever it was (a pause and resume had replaced it by the remaining
time); once the break is acknowledged by `Toggle()` the next interval runs in state
RUNNING with a timer armed with `D`. -/
theorem break_resets_duration (t : TaskRunner) (h : HookOracle) (evs : List Event)
    (s : Session) (p : Pomodoro) (now1 now2 : Time)
    (hrun : exec h (Session.init t) evs = some s) (hloc : s.loc = Loc.storing p)
    (hlt : s.tr.count < s.tr.nPomodoros) :
    ∃ s1 s2, step h s (Event.stored now1 none) = some s1 ∧
      s1.tr.state = State.BREAKING ∧ s1.loc = Loc.breaking ∧
      s1.tr.duration = t.origDuration ∧
      Toggle h s1 now2 = some s2 ∧ s2.tr.state = State.RUNNING ∧
      s2.loc = Loc.selecting { Start := now2, End := 0 } now2 t.origDuration ∧
      s2.tr.duration = t.origDuration ∧ s2.tr.started = now2 := by
  have hcfg := (exec_config evs hrun).1
  simp only [Session.init] at hcfg
  have hk := hookOk_exec evs (by simp [Session.init, hookOk]) hrun
  rw [hloc] at hk
  simp only [hookOk] at hk
  cases hon : s.tr.onEvent with
  | nil => exact absurd hon hk
  | cons app args =>
    have e1 : afterStore h s none =
        { s with
            tr := { SetState s.tr State.BREAKING with duration := s.tr.origDuration }
            results := s.results ++ [none]
            notified := s.notified ++ [("Pomo", "It is time to take a break!")]
            hooked := s.hooked ++ [{ app := app, args := args, pomoState := State.BREAKING }]
            loc := Loc.breaking } := by
      unfold afterStore
      simp only []
      rw [if_neg (ne_of_lt hlt)]
      simp [fire_eq, SetState, hon]
    have hs1 : (afterStore h s none).tr.state = State.BREAKING := by rw [e1]; rfl
    have hl1 : (afterStore h s none).loc = Loc.breaking := by rw [e1]
    have hd1 : (afterStore h s none).tr.duration = s.tr.origDuration := by rw [e1]
    have hc1 : (afterStore h s none).tr.count < (afterStore h s none).tr.nPomodoros := by
      rw [e1]; exact hlt
    have hon1 : (afterStore h s none).tr.onEvent = app :: args := by rw [e1]; exact hon
    have h2 : Toggle h (afterStore h s none) now2
        = some (loopHead h (afterStore h s none) now2) := by
      simp [Toggle, hs1, step, hl1]
    have e2 : loopHead h (afterStore h s none) now2 =
        { afterStore h s none with
            tr := { SetState (afterStore h s none).tr State.RUNNING with started := now2 }
            hooked := (afterStore h s none).hooked ++
              [{ app := app, args := args, pomoState := State.RUNNING }]
            loc := Loc.selecting { Start := now2, End := 0 } now2
              (afterStore h s none).tr.duration } := by
      unfold loopHead
      rw [if_pos hc1]
      simp [fire_eq, SetState, hon1]
    refine ⟨afterStore h s none, loopHead h (afterStore h s none) now2, ?_, hs1, hl1,
      hd1.trans hcfg, h2, ?_, ?_, ?_, ?_⟩
    · simp [step, hloc]
    · rw [e2]; rfl
    · rw [e2, hd1, hcfg]
    · rw [e2]; exact hd1.trans hcfg
    · rw [e2]

/-- C10, witness: the first interval of `freshRunner`, paused and resumed with 7 s left,
completes; after the break the timer is armed with the full 10 s. -/
theorem break_resets_duration_witness :
    exec hookSucceeds (Session.init freshRunner) resumedFirstEvents = some resumedFirstSession ∧
      resumedFirstSession.loc = Loc.storing { Start := 0, End := 50 * Second } ∧
      resumedFirstSession.tr.count < resumedFirstSession.tr.nPomodoros ∧
      resumedFirstSession.tr.duration = 7 * Second ∧ freshRunner.origDuration = 10 * Second ∧
      ∃ s1 s2, step hookSucceeds resumedFirstSession (Event.stored (51 * Second) none) = some s1 ∧
        s1.tr.state = State.BREAKING ∧ s1.loc = Loc.breaking ∧
        s1.tr.duration = freshRunner.origDuration ∧
        Toggle hookSucceeds s1 (60 * Second) = some s2 ∧ s2.tr.state = State.RUNNING ∧
        s2.loc = Loc.selecting { Start := 60 * Second, End := 0 } (60 * Second)
          freshRunner.origDuration ∧
        s2.tr.duration = freshRunner.origDuration ∧ s2.tr.started = 60 * Second :=
  ⟨by decide, by decide, by decide, by decide, by decide,
    break_resets_duration freshRunner hookSucceeds resumedFirstEvents resumedFirstSession
      { Start := 0, End := 50 * Second } (51 * Second) (60 * Second) (by decide) (by decide)
      (by decide)⟩

/-- C11: a runner that starts from count 0 with target `N ≥ 1`, receives no pause request
and reaches COMPLETE (so its appends succeeded) has executed the hook with exactly the
states `RUNNING, (BREAKING, RUNNING) × (N - 1), COMPLETE`. For `N = 1` these are
`RUNNING, COMPLETE`, exactly one interval is appended, and no execution of that runner
ever has state BREAKING. -/
theorem hook_state_sequence (t : TaskRunner) (h : HookOracle) (evs : List Event) (s : Session)
    (hnew : t.state = State.CREATED) (hzero : t.count = 0) (hN : 1 ≤ t.nPomodoros)
    (hquiet : noPause evs = true) (hrun : exec h (Session.init t) evs = some s)
    (hdone : s.tr.state = State.COMPLETE) :
    s.states = expectedStates t.nPomodoros.toNat ∧
      (t.nPomodoros = 1 →
        s.states = [State.RUNNING, State.COMPLETE] ∧ s.appends.length = 1 ∧
          ∀ evs1 s1, exec h (Session.init t) evs1 = some s1 →
            s1.tr.state ≠ State.BREAKING) := by
  have hc0 : Counted 0 t.nPomodoros (Session.init t) := hzero ▸ counted_init t hnew
  have hc := counted_exec evs hc0 hrun
  have ht := traced_exec evs hc0 (by simp [Session.init, hookOk]) (traced_init t) hquiet hrun
  have hlen := hc.complete hdone
  simp only [sub_zero] at hlen
  have hpos : 1 ≤ s.appends.length := by omega
  have hl := hc.loc
  have hst : s.states = expectedStates t.nPomodoros.toNat := by
    cases hloc : s.loc <;> rw [hloc] at hl ht <;> simp only [locOk, tracedOk] at hl ht
    case returned err =>
      cases err with
      | none =>
        simp only [tracedOk] at ht
        rw [ht hpos, hlen]
        rfl
      | some e => simp only [locOk] at hl; rw [hdone] at hl; exact absurd hl (by decide)
    case panicked =>
      rw [ht] at hpos
      simp at hpos
    all_goals (rw [hdone] at hl; exact absurd hl.1 (by decide))
  refine ⟨hst, fun h1 => ⟨?_, ?_, ?_⟩⟩
  · rw [hst, h1]; rfl
  · rw [hlen, h1]; rfl
  · intro evs1 s1 hrun1 hb
    have hr := ranked_exec evs1 hc0
      (hzero ▸ ranked_init t hnew (by omega)) hrun1
    have hcfg := (exec_config evs1 hrun1).2.2.1
    simp only [Session.init] at hcfg
    have hbk := hr.breaking hb
    omega

/-- C11, witness: the two intervals of `freshRunner` without pause. -/
theorem hook_state_sequence_witness :
    freshRunner.state = State.CREATED ∧ freshRunner.count = 0 ∧ 1 ≤ freshRunner.nPomodoros ∧
      noPause quietEvents = true ∧
      exec hookSucceeds (Session.init freshRunner) quietEvents = some quietFinal ∧
      quietFinal.tr.state = State.COMPLETE ∧
      quietFinal.states = [State.RUNNING, State.BREAKING, State.RUNNING, State.COMPLETE] ∧
      (quietFinal.states = expectedStates freshRunner.nPomodoros.toNat ∧
        (freshRunner.nPomodoros = 1 →
          quietFinal.states = [State.RUNNING, State.COMPLETE] ∧ quietFinal.appends.length = 1 ∧
            ∀ evs1 s1, exec hookSucceeds (Session.init freshRunner) evs1 = some s1 →
              s1.tr.state ≠ State.BREAKING)) :=
  ⟨by decide, by decide, by decide, by decide, by decide, by decide, by decide,
    hook_state_sequence freshRunner hookSucceeds quietEvents quietFinal (by decide) (by decide)
      (by decide) (by decide) (by decide) (by decide)⟩

/-- C12: a runner that starts from count 0 with target `N ≥ 1` and reaches COMPLETE,
whatever pauses it went through, has sent the notifier exactly `N - 1` break messages
followed by one completion message, and nothing else. A pause or a resume sends no
notification, nor does the start of an interval. -/
theorem notifier_messages (t : TaskRunner) (h : HookOracle) (evs : List Event) (s : Session)
    (hnew : t.state = State.CREATED) (hzero : t.count = 0) (hN : 1 ≤ t.nPomodoros)
    (hrun : exec h (Session.init t) evs = some s) (hdone : s.tr.state = State.COMPLETE) :
    s.notified = List.replicate (t.nPomodoros.toNat - 1) breakNote ++ [completeNote] ∧
      breakNote ≠ completeNote ∧
      (∀ s0 tp s1, step h s0 (Event.pause tp) = some s1 → s1.notified = s0.notified) ∧
      (∀ s0 now s1, s0.tr.count < s0.tr.nPomodoros →
        step h s0 (Event.start now) = some s1 → s1.notified = s0.notified) := by
  have hc0 : Counted 0 t.nPomodoros (Session.init t) := hzero ▸ counted_init t hnew
  have hc := counted_exec evs hc0 hrun
  have ht := noted_exec evs hc0 (by simp [Session.init, hookOk]) (noted_init t) hrun
  have hlen := hc.complete hdone
  simp only [sub_zero] at hlen
  have hpos : 1 ≤ s.appends.length := by omega
  have hl := hc.loc
  refine ⟨?_, by decide, fun _ _ _ hstep => step_pause_notified hstep, ?_⟩
  · cases hloc : s.loc <;> rw [hloc] at hl ht <;> simp only [locOk, notedOk] at hl ht
    case returned err =>
      cases err with
      | none =>
        simp only [notedOk] at ht
        rw [ht hpos, hlen]
      | some e => simp only [locOk] at hl; rw [hdone] at hl; exact absurd hl (by decide)
    case panicked =>
      rw [ht] at hpos
      simp at hpos
    all_goals (rw [hdone] at hl; exact absurd hl.1 (by decide))
  · intro s0 now s1 hlt hstep
    cases hloc : s0.loc <;> simp only [step, hloc, reduceCtorEq, Option.some.injEq] at hstep
    subst hstep
    exact loopHead_notified now hlt

/-- C12, witness: the session `freshEvents` of `freshRunner`, with one pause and resume. -/
theorem notifier_messages_witness :
    freshRunner.state = State.CREATED ∧ freshRunner.count = 0 ∧ 1 ≤ freshRunner.nPomodoros ∧
      exec hookSucceeds (Session.init freshRunner) freshEvents = some freshFinal ∧
      freshFinal.tr.state = State.COMPLETE ∧
      (freshFinal.notified
          = List.replicate (freshRunner.nPomodoros.toNat - 1) breakNote ++ [completeNote] ∧
        breakNote ≠ completeNote ∧
        (∀ s0 tp s1, step hookSucceeds s0 (Event.pause tp) = some s1 →
          s1.notified = s0.notified) ∧
        (∀ s0 now s1, s0.tr.count < s0.tr.nPomodoros →
          step hookSucceeds s0 (Event.start now) = some s1 → s1.notified = s0.notified)) :=
  ⟨by decide, by decide, by decide, by decide, by decide,
    notifier_messages freshRunner hookSucceeds freshEvents freshFinal (by decide) (by decide)
      (by decide) (by decide) (by decide)⟩

/-- C13: in every reachable session whose state is RUNNING, `Toggle()` sends nothing, and
a value that the loop nevertheless receives on `t.toggle` (it can only do so in the
`select`) leaves the whole session as it was: state, count, working duration, started
reference, armed timer, and the records of hook executions, notifications and appends. -/
theorem toggle_while_running (t : TaskRunner) (h : HookOracle) (evs : List Event)
    (s : Session) (now : Time) (hnew : t.state = State.CREATED)
    (hrun : exec h (Session.init t) evs = some s) (hstate : s.tr.state = State.RUNNING) :
    Toggle h s now = some s ∧
      (∀ s1, step h s (Event.toggle now) = some s1 → s1 = s) ∧
      (∀ p a d, s.loc = Loc.selecting p a d → step h s (Event.toggle now) = some s) := by
  have hl := (counted_exec evs (counted_init t hnew) hrun).loc
  refine ⟨?_, ?_, ?_⟩
  · simp [Toggle, hstate]
  · intro s1 hstep
    cases hloc : s.loc <;> simp only [step, hloc, reduceCtorEq, Option.some.injEq] at hstep
    case selecting => exact hstep.symm
    case breaking =>
      rw [hloc] at hl
      simp only [locOk] at hl
      rw [hstate] at hl
      exact absurd hl.1 (by decide)
  · intro p a d hloc
    simp [step, hloc]

/-- C13, witness: `freshRunner` just after its start, the first interval being timed. -/
theorem toggle_while_running_witness :
    freshRunner.state = State.CREATED ∧
      exec hookSucceeds (Session.init freshRunner) [Event.start 0] = some runningSession ∧
      runningSession.tr.state = State.RUNNING ∧
      (Toggle hookSucceeds runningSession (5 * Second) = some runningSession ∧
        (∀ s1, step hookSucceeds runningSession (Event.toggle (5 * Second)) = some s1 →
          s1 = runningSession) ∧
        (∀ p a d, runningSession.loc = Loc.selecting p a d →
          step hookSucceeds runningSession (Event.toggle (5 * Second)) = some runningSession)) :=
  ⟨by decide, by decide, by decide,
    toggle_while_running freshRunner hookSucceeds [Event.start 0] runningSession (5 * Second)
      (by decide) (by decide) (by decide)⟩

/-- C14 (the code on every reachable session, the failing one included): `Pause()` sends
on `t.pause` exactly when the state is RUNNING or PAUSED, but the request is delivered
only if the loop is at a receive from `t.pause`. In PAUSED it is delivered and the
runner resumes; in RUNNING with the loop in its `select` it is delivered and the
runner pauses; in CREATED, BREAKING and COMPLETE nothing is sent and the session is
unchanged. In RUNNING with the loop anywhere else (in the store transaction after
the timer fired, or returned with a store error) the send is made and never
received: the request is not delivered. -/
theorem pause_delivery (t : TaskRunner) (h : HookOracle) (evs : List Event) (s : Session)
    (now : Time) (hnew : t.state = State.CREATED)
    (hrun : exec h (Session.init t) evs = some s) :
    (s.tr.state = State.PAUSED →
        ∃ p r s1, s.loc = Loc.paused p r ∧ Pause h s now = some s1 ∧
          s1.tr.state = State.RUNNING ∧ s1.loc = Loc.selecting p now r) ∧
      (∀ p a d, s.tr.state = State.RUNNING → s.loc = Loc.selecting p a d →
        ∃ s1, Pause h s now = some s1 ∧ s1.tr.state = State.PAUSED ∧
          s1.loc = Loc.paused p (TimeRemaining s.tr now)) ∧
      (s.tr.state = State.RUNNING → (∀ p a d, s.loc ≠ Loc.selecting p a d) →
        Pause h s now = none) ∧
      ((s.tr.state = State.CREATED ∨ s.tr.state = State.BREAKING ∨
          s.tr.state = State.COMPLETE) → Pause h s now = some s) := by
  have hl := (counted_exec evs (counted_init t hnew) hrun).loc
  have hk := hookOk_exec evs (by simp [Session.init, hookOk]) hrun
  have hp := panicked_state_exec evs (s := Session.init t) (by simp [Session.init, hookOk])
    (by simp [Session.init]) hrun
  refine ⟨?_, ?_, ?_, ?_⟩
  · intro hst
    cases hloc : s.loc <;> rw [hloc] at hl hk <;> simp only [locOk, hookOk] at hl hk
    case paused p r =>
      cases hon : s.tr.onEvent with
      | nil => exact absurd hon hk
      | cons app args =>
        have e1 := onResume_eq h s p r now app args hon
        refine ⟨p, r, onResume h s p r now, rfl, ?_, by rw [e1]; rfl, by rw [e1]⟩
        simp [Pause, hst, step, hloc]
    case returned err =>
      cases err <;> simp only [locOk] at hl <;> rw [hst] at hl <;> exact absurd hl (by decide)
    case panicked =>
      rcases hp hloc with h1 | h1 <;> rw [hst] at h1 <;> exact absurd h1 (by decide)
    all_goals (rw [hst] at hl; exact absurd hl.1 (by decide))
  · intro p a d hst hloc
    rw [hloc] at hk
    simp only [hookOk] at hk
    cases hon : s.tr.onEvent with
    | nil => exact absurd hon hk
    | cons app args =>
      have e1 := onPause_eq h s p now app args hon
      refine ⟨onPause h s p now, ?_, by rw [e1]; rfl, by rw [e1]⟩
      simp [Pause, hst, step, hloc]
  · intro hst hno
    unfold Pause
    rw [if_pos (Or.inr hst)]
    cases hloc : s.loc <;> rw [hloc] at hl <;> simp only [locOk] at hl
    case selecting p a d => exact absurd hloc (hno p a d)
    case paused => rw [hst] at hl; exact absurd hl.1 (by decide)
    all_goals simp [step, hloc]
  · intro hst
    unfold Pause
    rw [if_neg (by rcases hst with h1 | h1 | h1 <;> simp [h1])]

/-- C14, witness: the failing input. The timer of the first interval of `freshRunner` has
fired and the store transaction runs: the state is RUNNING, `Pause()` sends, and the
request is not delivered. -/
theorem pause_delivery_witness :
    freshRunner.state = State.CREATED ∧
      exec hookSucceeds (Session.init freshRunner) [Event.start 0, Event.timerC (10 * Second)]
        = some storingSession ∧
      storingSession.tr.state = State.RUNNING ∧
      storingSession.loc = Loc.storing { Start := 0, End := 10 * Second } ∧
      Pause hookSucceeds storingSession (10 * Second) = none :=
  ⟨by decide, by decide, by decide, by decide,
    (pause_delivery freshRunner hookSucceeds [Event.start 0, Event.timerC (10 * Second)]
      storingSession (10 * Second) (by decide) (by decide)).2.2.1 (by decide)
      (fun p a d hc => by simp [storingSession] at hc)⟩

/-- C15 (as stated, refuted): `pausedSession` was paused at 23 s with 7 s captured. Read at
23 s `Status().Remaining` is 7 s, but at 25 s it is 5 s and at 30 s it is 0: it keeps
decreasing during the pause. -/
theorem paused_remaining_counterexample :
    exec hookSucceeds (Session.init freshRunner) pausedEvents = some pausedSession ∧
      pausedSession.tr.state = State.PAUSED ∧
      pausedSession.loc = Loc.paused { Start := 20 * Second, End := 0 } (7 * Second) ∧
      (pausedSession.tr.Status (23 * Second)).Remaining = 7 * Second ∧
      (pausedSession.tr.Status (25 * Second)).Remaining = 5 * Second ∧
      (pausedSession.tr.Status (30 * Second)).Remaining = 0 := by
  decide

/-- C15 (amended): the remaining time computed at the moment of pause is kept in a local
variable of the loop; the runner's working duration and started reference are only
replaced on resume. For a runner paused at `tp` and every `now`, the `Remaining` of
`Status()` is the `TimeRemaining` of the runner as it was before the pause: it equals
the captured value when read at `tp`, never exceeds it later, and is lower from two
seconds into the pause on (as long as the `int64` arithmetic does not overflow). -/
theorem paused_remaining (h : HookOracle) (s : Session) (p : Pomodoro) (a : Time)
    (d : Duration) (tp : Time) (app : String) (args : List String)
    (hstate : s.tr.state = State.RUNNING) (hloc : s.loc = Loc.selecting p a d)
    (hhook : s.tr.onEvent = app :: args) :
    ∃ s1, Pause h s tp = some s1 ∧ s1.tr.state = State.PAUSED ∧
      s1.loc = Loc.paused p (TimeRemaining s.tr tp) ∧
      (∀ now, (s1.tr.Status now).Remaining = TimeRemaining s.tr now) ∧
      (s1.tr.Status tp).Remaining = TimeRemaining s.tr tp ∧
      (∀ now, noOverflow s.tr tp → noOverflow s.tr now → tp ≤ now →
        (s1.tr.Status now).Remaining ≤ TimeRemaining s.tr tp) ∧
      (∀ now, noOverflow s.tr tp → noOverflow s.tr now → tp + 2 * Second ≤ now →
        (s1.tr.Status now).Remaining < TimeRemaining s.tr tp) := by
  have h1 : Pause h s tp = some (onPause h s p tp) := by
    simp [Pause, hstate, step, hloc]
  have e1 := onPause_eq h s p tp app args hhook
  have hrem : ∀ now, ((onPause h s p tp).tr.Status now).Remaining = TimeRemaining s.tr now := by
    intro now
    rw [e1]
    rfl
  refine ⟨_, h1, by rw [e1]; rfl, by rw [e1], hrem, hrem tp, ?_, ?_⟩
  · intro now h2 h3 h4
    rw [hrem now]
    exact timeRemaining_antitone s.tr tp now h2 h3 h4
  · intro now h2 h3 h4
    rw [hrem now]
    exact timeRemaining_drops s.tr tp now h2 h3 h4

/-- C15, witness: `freshRunner` paused 3 s into its first interval. -/
theorem paused_remaining_witness :
    runningSession.tr.state = State.RUNNING ∧
      runningSession.loc = Loc.selecting { Start := 0, End := 0 } 0 (10 * Second) ∧
      runningSession.tr.onEvent = "sh" :: ["hook.sh"] ∧
      ∃ s1, Pause hookSucceeds runningSession (3 * Second) = some s1 ∧
        s1.tr.state = State.PAUSED ∧
        s1.loc = Loc.paused { Start := 0, End := 0 }
          (TimeRemaining runningSession.tr (3 * Second)) ∧
        (∀ now, (s1.tr.Status now).Remaining = TimeRemaining runningSession.tr now) ∧
        (s1.tr.Status (3 * Second)).Remaining = TimeRemaining runningSession.tr (3 * Second) ∧
        (∀ now, noOverflow runningSession.tr (3 * Second) → noOverflow runningSession.tr now →
          3 * Second ≤ now →
          (s1.tr.Status now).Remaining ≤ TimeRemaining runningSession.tr (3 * Second)) ∧
        (∀ now, noOverflow runningSession.tr (3 * Second) → noOverflow runningSession.tr now →
          3 * Second + 2 * Second ≤ now →
          (s1.tr.Status now).Remaining < TimeRemaining runningSession.tr (3 * Second)) :=
  ⟨by decide, by decide, by decide,
    paused_remaining hookSucceeds runningSession { Start := 0, End := 0 } 0 (10 * Second)
      (3 * Second) "sh" ["hook.sh"] (by decide) (by decide) (by decide)⟩

/-- C16 (the code at the failing interleaving): the timer of the first interval of
`freshRunner` fires, and `Pause()` is called while the store transaction runs. It
reads state RUNNING and blocks in its send, the mutex held, because the loop is not
at a receive from `t.pause`. When the store returns, the loop enters BREAKING and
waits on `t.toggle` (or, the store failing, `run` returns): in that configuration no
move is possible any more, `Toggle()` cannot take the mutex and the session never
proceeds. -/
theorem pause_send_deadlock :
    sysExec hookSucceeds { session := Session.init freshRunner } raceActions = some raceSystem ∧
      raceSystem.guard = Guard.pauseSending ∧ raceSystem.session.loc = Loc.breaking ∧
      (∀ act, sysStep hookSucceeds raceSystem act = none) ∧
      (∀ acts sys, sysExec hookSucceeds raceSystem acts = some sys →
        acts = [] ∧ sys = raceSystem) ∧
      (sysExec hookSucceeds { session := Session.init freshRunner }
          [Action.loop (Event.start 0), Action.loop (Event.timerC (10 * Second)),
            Action.callPause (10 * Second),
            Action.loop (Event.stored (11 * Second) (some "disk full"))]).map
        (fun sys => (sys.guard, sys.session.loc))
        = some (Guard.pauseSending, Loc.returned (some "disk full")) :=
  ⟨by decide, rfl, rfl, fun act => sysStep_blocked hookSucceeds rfl (Or.inl rfl) act,
    fun acts _ hrun => sysExec_blocked hookSucceeds rfl (Or.inl rfl) acts hrun, by decide⟩

/-- C17: a pause taken when `e` has elapsed of a working duration `D`, `0 ≤ e ≤ D`,
captures a whole number of seconds `R` with `D - e - 1s < R ≤ D - e`. Hence, for an
interval that goes through `k` pause and resume cycles, each pause taken before the
timer is due, the time it is scheduled to run in total (the time run before each
pause, plus the duration of the timer armed by the last resume) is at most `D`, at
least `D - k` seconds, and more than that as soon as there is a pause. -/
theorem pause_truncation (h : HookOracle) (s : Session) (p : Pomodoro) (a : Time)
    (app : String) (args : List String) (cycles : List (Time × Time))
    (hloc : s.loc = Loc.selecting p a s.tr.duration) (hon : s.tr.onEvent = app :: args)
    (hmax : s.tr.duration ≤ maxDuration)
    (hin : pausedInTime s.tr.duration s.tr.started cycles) :
    (∀ (t : TaskRunner) (now : Time), 0 ≤ now - t.started → now - t.started ≤ t.duration →
        t.duration ≤ maxDuration →
        TimeRemaining t now % Second = 0 ∧
          t.duration - (now - t.started) - Second < TimeRemaining t now ∧
          TimeRemaining t now ≤ t.duration - (now - t.started)) ∧
      ∃ s1 a1, exec h s (pauseCycles cycles) = some s1 ∧
        s1.loc = Loc.selecting p a1 s1.tr.duration ∧
        ranFor s.tr.started cycles + s1.tr.duration ≤ s.tr.duration ∧
        s.tr.duration - cycles.length * Second ≤ ranFor s.tr.started cycles + s1.tr.duration ∧
        (cycles ≠ [] →
          s.tr.duration - cycles.length * Second
            < ranFor s.tr.started cycles + s1.tr.duration) := by
  refine ⟨?_, cycles_exec h p app args cycles s a hloc hon hmax hin⟩
  intro t now h0 h1 h2
  have hb := remainingOf_bounds t.duration t.started now h0 h1 h2
  rw [timeRemaining_eq_remainingOf]
  exact ⟨hb.1, hb.2.1, hb.2.2.1⟩

/-- C17, witness: `runningSession` (10 s) paused after 3 s, resumed with 7 s, paused again
1.5 s later and resumed with 5 s: scheduled to run 9.5 s in total. -/
theorem pause_truncation_witness :
    runningSession.loc = Loc.selecting { Start := 0, End := 0 } 0 runningSession.tr.duration ∧
      runningSession.tr.onEvent = "sh" :: ["hook.sh"] ∧
      runningSession.tr.duration ≤ maxDuration ∧
      ranFor runningSession.tr.started twoCycles = 4500000000 ∧
      ((∀ (t : TaskRunner) (now : Time), 0 ≤ now - t.started → now - t.started ≤ t.duration →
          t.duration ≤ maxDuration →
          TimeRemaining t now % Second = 0 ∧
            t.duration - (now - t.started) - Second < TimeRemaining t now ∧
            TimeRemaining t now ≤ t.duration - (now - t.started)) ∧
        ∃ s1 a1, exec hookSucceeds runningSession (pauseCycles twoCycles) = some s1 ∧
          s1.loc = Loc.selecting { Start := 0, End := 0 } a1 s1.tr.duration ∧
          ranFor runningSession.tr.started twoCycles + s1.tr.duration
            ≤ runningSession.tr.duration ∧
          runningSession.tr.duration - twoCycles.length * Second
            ≤ ranFor runningSession.tr.started twoCycles + s1.tr.duration ∧
          (twoCycles ≠ [] →
            runningSession.tr.duration - twoCycles.length * Second
              < ranFor runningSession.tr.started twoCycles + s1.tr.duration)) :=
  ⟨by decide, by decide, by decide, by decide,
    pause_truncation hookSucceeds runningSession { Start := 0, End := 0 } 0 "sh" ["hook.sh"]
      twoCycles (by decide) (by decide) (by decide)
      (by simp only [twoCycles, pausedInTime]; decide)⟩

/-- C18: for a runner whose initial count `k` is at most its target `N`, along every
execution the count never decreases and never exceeds `N`, state BREAKING implies
count < `N` and state COMPLETE implies count = `N`. The loop takes at most `N - k`
timer expirations, and once the count is `N` it is not timing anything any more: it
has not been started, is storing the last interval, or has ended. -/
theorem counter_invariant (t : TaskRunner) (h : HookOracle) (evs1 evs2 : List Event)
    (s1 s2 : Session) (hnew : t.state = State.CREATED) (hle : t.count ≤ t.nPomodoros)
    (hrun1 : exec h (Session.init t) evs1 = some s1) (hrun2 : exec h s1 evs2 = some s2) :
    t.count ≤ s1.tr.count ∧ s1.tr.count ≤ s2.tr.count ∧ s2.tr.count ≤ t.nPomodoros ∧
      (s2.tr.state = State.BREAKING → s2.tr.count < t.nPomodoros) ∧
      (s2.tr.state = State.COMPLETE → s2.tr.count = t.nPomodoros) ∧
      expiries (evs1 ++ evs2) ≤ (t.nPomodoros - t.count).toNat ∧
      (s2.tr.count = t.nPomodoros →
        s2.loc = Loc.created ∨ (∃ p, s2.loc = Loc.storing p) ∨
          (∃ e, s2.loc = Loc.returned e) ∨ s2.loc = Loc.panicked) := by
  have hc0 := counted_init t hnew
  have hr0 := ranked_init t hnew hle
  have hc1 := counted_exec evs1 hc0 hrun1
  have hr1 := ranked_exec evs1 hc0 hr0 hrun1
  have hc2 := counted_exec evs2 hc1 hrun2
  have hr2 := ranked_exec evs2 hc1 hr1 hrun2
  have hN := hc2.target
  have hm := (exec_appends_expiries evs2 hrun2).2
  have hrun : exec h (Session.init t) (evs1 ++ evs2) = some s2 := by
    rw [exec_append, hrun1]; exact hrun2
  have hex := (exec_appends_expiries (evs1 ++ evs2) hrun).1
  have hcount := hc2.count
  have hup := hr2.upper
  simp only [Session.init, List.length_nil, Nat.zero_add] at hex
  refine ⟨hr1.lower, hm, by omega, fun hb => by have := (hr2.breaking hb).2; omega,
    fun hd => by have := hr2.complete hd; omega, by omega, ?_⟩
  intro heq
  have hl := hc2.loc
  cases hloc : s2.loc <;> rw [hloc] at hl <;> simp only [locOk] at hl
  case created => exact Or.inl rfl
  case storing p => exact Or.inr (Or.inl ⟨p, rfl⟩)
  case returned e => exact Or.inr (Or.inr (Or.inl ⟨e, rfl⟩))
  case panicked => exact Or.inr (Or.inr (Or.inr rfl))
  all_goals omega

/-- C18, witness: `freshRunner` at the pause of its second interval, then to the end. -/
theorem counter_invariant_witness :
    freshRunner.state = State.CREATED ∧ freshRunner.count ≤ freshRunner.nPomodoros ∧
      exec hookSucceeds (Session.init freshRunner) pausedEvents = some pausedSession ∧
      exec hookSucceeds pausedSession restEvents = some restFinal ∧
      (freshRunner.count ≤ pausedSession.tr.count ∧
        pausedSession.tr.count ≤ restFinal.tr.count ∧
        restFinal.tr.count ≤ freshRunner.nPomodoros ∧
        (restFinal.tr.state = State.BREAKING → restFinal.tr.count < freshRunner.nPomodoros) ∧
        (restFinal.tr.state = State.COMPLETE → restFinal.tr.count = freshRunner.nPomodoros) ∧
        expiries (pausedEvents ++ restEvents)
          ≤ (freshRunner.nPomodoros - freshRunner.count).toNat ∧
        (restFinal.tr.count = freshRunner.nPomodoros →
          restFinal.loc = Loc.created ∨ (∃ p, restFinal.loc = Loc.storing p) ∨
            (∃ e, restFinal.loc = Loc.returned e) ∨ restFinal.loc = Loc.panicked)) :=
  ⟨by decide, by decide, by decide, by decide,
    counter_invariant freshRunner hookSucceeds pausedEvents restEvents pausedSession restFinal
      (by decide) (by decide) (by decide) (by decide)⟩

/-- C19: the runner `NewTaskRunner` builds from a task with `k` completed intervals and
target `N` starts in state CREATED with count `k`. If `k < N`, every execution that
reaches COMPLETE has issued exactly `N - k` append calls. If `k ≥ N`, the only thing
the loop ever does is, on `Start()`, to notify the completion once and set the state
to COMPLETE (the hook, if any, sees only COMPLETE): no append, no interval, no state
RUNNING or BREAKING, and the loop has ended. -/
theorem resume_partly_done (task : Task) (config : Config) (t : TaskRunner) (h : HookOracle)
    (hbuilt : NewTaskRunner task config none = Except.ok t) :
    t.count = task.Pomodoros.length ∧ t.nPomodoros = task.NPomodoros ∧
      t.state = State.CREATED ∧
      ((task.Pomodoros.length : Int) < task.NPomodoros →
        ∀ evs s, exec h (Session.init t) evs = some s → s.tr.state = State.COMPLETE →
          (s.appends.length : Int) = task.NPomodoros - task.Pomodoros.length) ∧
      (task.NPomodoros ≤ (task.Pomodoros.length : Int) →
        (∀ now, ∃ s, exec h (Session.init t) [Event.start now] = some s) ∧
          ∀ evs s, exec h (Session.init t) evs = some s →
            (evs = [] ∧ s = Session.init t) ∨
              ∃ now, evs = [Event.start now] ∧ s.tr.state = State.COMPLETE ∧
                s.appends = [] ∧ s.notified = [completeNote] ∧
                (s.loc = Loc.returned none ∨ s.loc = Loc.panicked) ∧
                ∀ st ∈ s.states, st = State.COMPLETE) := by
  simp only [NewTaskRunner, Except.ok.injEq] at hbuilt
  subst hbuilt
  refine ⟨rfl, rfl, rfl, ?_, ?_⟩
  · intro hlt evs s hrun hdone
    have hc := counted_exec evs (counted_init _ rfl) hrun
    have hlen := hc.complete hdone
    simp only at hlen
    omega
  · intro hge
    refine ⟨fun now => ⟨_, rfl⟩, ?_⟩
    intro evs s hrun
    rcases exec_done_at_start h _ hge evs s hrun with hnil | ⟨now, hev, hs⟩
    · exact Or.inl hnil
    · right
      have hf := finish_facts h (Session.init
        { count := task.Pomodoros.length, taskID := task.ID, taskMessage := task.Message,
          nPomodoros := task.NPomodoros, origDuration := task.Duration,
          state := State.CREATED, duration := task.Duration, onEvent := config.OnEvent })
      rw [← hs] at hf
      refine ⟨now, hev, hf.1, hf.2.1, hf.2.2.1, hf.2.2.2.1, ?_⟩
      intro st hst
      rcases hf.2.2.2.2 with he | he <;> rw [he] at hst <;>
        simp [Session.init, Session.states] at hst
      exact hst

/-- C19, witness: `resumedTask` has one completed interval out of two. -/
theorem resume_partly_done_witness :
    NewTaskRunner resumedTask hookConfig none = Except.ok resumedRunner ∧
      (resumedRunner.count = resumedTask.Pomodoros.length ∧
        resumedRunner.nPomodoros = resumedTask.NPomodoros ∧
        resumedRunner.state = State.CREATED ∧
        ((resumedTask.Pomodoros.length : Int) < resumedTask.NPomodoros →
          ∀ evs s, exec hookSucceeds (Session.init resumedRunner) evs = some s →
            s.tr.state = State.COMPLETE →
            (s.appends.length : Int) = resumedTask.NPomodoros - resumedTask.Pomodoros.length) ∧
        (resumedTask.NPomodoros ≤ (resumedTask.Pomodoros.length : Int) →
          (∀ now, ∃ s, exec hookSucceeds (Session.init resumedRunner) [Event.start now] = some s) ∧
            ∀ evs s, exec hookSucceeds (Session.init resumedRunner) evs = some s →
              (evs = [] ∧ s = Session.init resumedRunner) ∨
                ∃ now, evs = [Event.start now] ∧ s.tr.state = State.COMPLETE ∧
                  s.appends = [] ∧ s.notified = [completeNote] ∧
                  (s.loc = Loc.returned none ∨ s.loc = Loc.panicked) ∧
                  ∀ st ∈ s.states, st = State.COMPLETE)) :=
  ⟨rfl, resume_partly_done resumedTask hookConfig resumedRunner hookSucceeds rfl⟩

/-- C20: `TaskFiltersFromStrings` returns two filters for every argument without `=`,
one for every argument with exactly one `=` and none for the others, in the order
of the arguments. The argument `k=v` gives the filter that accepts the tasks having
tag `k` with value `v`; an argument `s` without `=` gives first the filter accepting
the tasks having tag `s` with the empty value, then the filter accepting the tasks
whose message contains `s`. -/
theorem task_filters_from_strings (args : List String) :
    (TaskFiltersFromStrings args).length
        = 2 * (args.filter (fun arg => equalSigns arg = 0)).length
          + (args.filter (fun arg => equalSigns arg = 1)).length ∧
      (∀ args1 args2, TaskFiltersFromStrings (args1 ++ args2)
        = TaskFiltersFromStrings args1 ++ TaskFiltersFromStrings args2) ∧
      (∀ k v : String, '=' ∉ k.data → '=' ∉ v.data →
        TaskFiltersFromStrings [k ++ "=" ++ v] = [TaskFilterByTag k v]) ∧
      (∀ s : String, '=' ∉ s.data →
        TaskFiltersFromStrings [s] = [TaskFilterByTag s "", TaskFilterByName s]) ∧
      (∀ arg, 2 ≤ equalSigns arg → TaskFiltersFromStrings [arg] = []) ∧
      (∀ (k v : String) (task : Task), TaskFilterByTag k v task = true ↔
        (task.Tags.HasTag k = true ∧ task.Tags.Get k = v)) ∧
      (∀ (k v : String) (task : Task), TaskFilterByTag k v task = true ↔
        task.Tags.kvs.lookup k = some v) ∧
      (∀ (s : String) (task : Task), TaskFilterByName s task = true ↔
        s.data <:+: task.Message.data) := by
  refine ⟨filters_length args, filters_append, ?_, ?_, ?_, ?_, ?_, ?_⟩
  · intro k v hk hv
    simp [TaskFiltersFromStrings, addFilters, split_pair k v hk hv]
  · intro s hs
    simp [TaskFiltersFromStrings, addFilters, split_plain s hs]
  · intro arg h2
    have hl := addFilters_length arg
    rw [if_neg (by omega), if_neg (by omega)] at hl
    simpa [TaskFiltersFromStrings] using hl
  · intro k v task
    simp [TaskFilterByTag]
  · intro k v task
    simp only [TaskFilterByTag, Tags.HasTag, Tags.Get]
    cases task.Tags.kvs.lookup k <;> simp
  · intro s task
    simp [TaskFilterByName, Contains]

/-- C20, instance: three arguments, with one, no and two `=`; the three filters returned
all accept `taggedTask`. -/
theorem task_filters_from_strings_witness :
    (TaskFiltersFromStrings ["project=pomo", "urgent", "a=b=c"]).length = 3 ∧
      (TaskFiltersFromStrings ["project=pomo", "urgent", "a=b=c"]).map (fun f => f taggedTask)
        = [true, true, true] ∧
      (TaskFiltersFromStrings ["project=other", "fix", "="]).map (fun f => f taggedTask)
        = [false, false, true, false] :=
  ⟨((task_filters_from_strings ["project=pomo", "urgent", "a=b=c"]).1).trans (by decide),
    by decide, by decide⟩

end Pomo
